import Mathlib

/-!
Verification development for the observer / change-notification engine of
`lib/glue.js` (the v0.6.0-alpha `Glue` class, the first class defined in that
file) together with its pure collection-helper collaborator (`utils`).

Modelling conventions (shallow embedding):
* Values are JSON-safe JavaScript values (`JVal`).  Targets are required to be
  acyclic and copy-safe, so `Glue.deepClone` (a `JSON.parse(JSON.stringify(...))`
  round trip) is the identity on the modelled value space and is written as
  `deepClone := id`.
* A JavaScript `undefined` result (absent value) is `Option.none`; `null` is a
  proper value `JVal.null`.  Object fields never hold `undefined` (such fields
  are not copy-safe: the JSON round trip drops them).  Assigning past the end
  of an array creates holes, which the JSON round trip turns into `null`; the
  model therefore pads with `JVal.null` directly.
* Paths are modelled in parsed form: a list of segments, where `Seg.prop s`
  is a `.s` property segment and `Seg.idx n` is a `[n]` bracket segment.  The
  registry key `"a.b[]"` of a generic (array-wildcard) observer is stored as
  its base path `a.b`; membership in the `generic` map carries the trailing
  `[]` marker.  String-prefix matching of generic keys is modelled as
  segment-prefix matching (the string forms agree on all well-formed paths).
* Observer callbacks and contexts are opaque; they are modelled by numeric
  identities.  Dispatching a message is recorded in an output trace instead of
  calling a function, and a callback that the engine would invoke corresponds
  exactly to one trace entry.
* A thrown `TypeError` is modelled by an error flag; dispatches performed
  before the throw remain in the trace, mirroring the synchronous dispatch
  order of the source.
* Non-structural reads (e.g. `.length` of a string read through a path, or
  character indexing into a string) yield `none`: such accesses produce
  primitive copies in JavaScript and are outside the object-graph model.  The
  `.length` reads that `invokeGeneric` performs explicitly are modelled
  separately by `lengthRead`, which does include string/array lengths.
-/

/-- JSON-safe JavaScript values: the modelled value space of a copy-safe
`Glue` target.  Numbers are modelled as integers (no claim depends on
fractional or NaN numerics). -/
inductive JVal where
  | null : JVal
  | bool : Bool → JVal
  | num : Int → JVal
  | str : String → JVal
  | arr : List JVal → JVal
  | obj : List (String × JVal) → JVal
deriving Repr

/-- Keys of an object literal, in insertion order. -/
def keysOf (fs : List (String × JVal)) : List String :=
  fs.map Prod.fst

/-- No duplicate keys (JavaScript objects cannot hold two fields of the same
name). -/
def noDupKeys : List String → Bool
  | [] => true
  | k :: rest => !(rest.contains k) && noDupKeys rest

mutual

/-- Well-formedness of a modelled value: every object level has pairwise
distinct field names, as every real JavaScript object does. -/
def wf : JVal → Bool
  | .obj fs => noDupKeys (keysOf fs) && wfFields fs
  | .arr xs => wfList xs
  | _ => true

def wfFields : List (String × JVal) → Bool
  | [] => true
  | kv :: rest => wf kv.2 && wfFields rest

def wfList : List JVal → Bool
  | [] => true
  | v :: rest => wf v && wfList rest

end

mutual

/-- `utils.isEqual`: structural deep equality.  Mirrors the source: a strict
(`===`) match, a constructor check, arrays compared by length plus elementwise
recursion, objects compared by key-set size plus per-key recursion through
`Object.keys` lookup. -/
def isEqual : JVal → JVal → Bool
  | .null, .null => true
  | .bool a, .bool b => a == b
  | .num a, .num b => a == b
  | .str a, .str b => a == b
  | .arr xs, .arr ys => xs.length == ys.length && isEqualList xs ys
  | .obj fs, .obj gs => fs.length == gs.length && isEqualFields fs gs
  | _, _ => false

def isEqualList : List JVal → List JVal → Bool
  | [], _ => true
  | _, [] => false
  | x :: xs, y :: ys => isEqual x y && isEqualList xs ys

def isEqualFields : List (String × JVal) → List (String × JVal) → Bool
  | [], _ => true
  | kv :: rest, gs =>
      (match gs.find? (fun g => g.1 == kv.1) with
       | none => false
       | some g => isEqual kv.2 g.2) && isEqualFields rest gs

end

/-- Deep equality lifted to possibly-absent values: `undefined` equals only
`undefined` (`a === b` in the source), and `undefined` never equals a present
value (the `a == null || b == null` guard). -/
def isEqualOpt : Option JVal → Option JVal → Bool
  | none, none => true
  | some a, some b => isEqual a b
  | _, _ => false

/-- `Glue.deepClone` is `JSON.parse(JSON.stringify(obj))`; on the modelled
(acyclic, copy-safe, JSON-safe) value space it is the identity copy. -/
def deepClone (v : JVal) : JVal := v

/-- One parsed path segment: a `.name` property access or a `[n]` bracket
index. -/
inductive Seg where
  | prop : String → Seg
  | idx : Nat → Seg
deriving Repr, DecidableEq

/-- A parsed path: what `Glue.prototype.get` recovers from a path string by
its segment/bracket regexes. -/
abbrev JPath := List Seg

/-- One step of the safe traversal in `Glue.prototype.get`: property access
on objects (bracket indices on objects read the decimal field name, as
JavaScript coerces `obj[2]` to `obj["2"]`), index access on arrays (a decimal
property name on an array reads the index, as JavaScript coerces
`arr["2"]` to `arr[2]`).  Accesses into primitives and `null` yield
`undefined` (`none`). -/
def getSeg : JVal → Seg → Option JVal
  | .obj fs, .prop s => (fs.find? (fun kv => kv.1 == s)).map Prod.snd
  | .obj fs, .idx n => (fs.find? (fun kv => kv.1 == toString n)).map Prod.snd
  | .arr xs, .idx n => xs[n]?
  | .arr xs, .prop s => (s.toNat?).bind (fun n => xs[n]?)
  | _, _ => none

/-- `Glue.prototype.get` over a parsed path: walks segment by segment and
returns `undefined` (`none`) the moment a link is missing or `null`.  The
empty path (`''` or `'*'`) returns the whole object. -/
def jget : JVal → JPath → Option JVal
  | t, [] => some t
  | t, s :: rest =>
      match getSeg t s with
      | none => none
      | some ch => jget ch rest

/-- JavaScript property assignment on an object literal: replace the field in
place if the name is present (insertion order is preserved), append it
otherwise. -/
def setField : List (String × JVal) → String → JVal → List (String × JVal)
  | [], k, v => [(k, v)]
  | kv :: rest, k, v =>
      if kv.1 == k then (k, v) :: rest else kv :: setField rest k v

/-- JavaScript index assignment on an array: in-range indices are replaced;
an index past the end extends the array, and the JSON round trip renders the
intervening holes as `null`. -/
def setIdxPad (xs : List JVal) (n : Nat) (v : JVal) : List JVal :=
  if n < xs.length then xs.set n v
  else xs ++ List.replicate (n - xs.length) JVal.null ++ [v]

/-- The `base[keySuffix] = value` assignment performed by `set`, `sortBy` and
`swap` after `baseKeyAndSuffix` splits the path.  On objects it writes the
named field (a bracket suffix writes its decimal field name); on arrays a
bracket suffix writes the index and a decimal property suffix is coerced to an
index; a non-numeric property on an array is not copy-safe and is outside the
model.  Assigning through `null`/`undefined` throws (`none`); assigning onto a
primitive is the sloppy-mode silent no-op. -/
def writeKey : JVal → Seg → JVal → Option JVal
  | .obj fs, .prop s, v => some (.obj (setField fs s v))
  | .obj fs, .idx n, v => some (.obj (setField fs (toString n) v))
  | .arr xs, .idx n, v => some (.arr (setIdxPad xs n v))
  | .arr xs, .prop s, v =>
      match s.toNat? with
      | some n => some (.arr (setIdxPad xs n v))
      | none => none
  | .null, _, _ => none
  | c, _, _ => some c

/-- The same assignment when the right-hand side may be `undefined` (`swap`
reads its values with `get`, which can yield `undefined`).  In JSON-clone
semantics, assigning `undefined` to an object field erases the field and
assigning it into an array leaves a hole rendered as `null`. -/
def writeKeyOpt : JVal → Seg → Option JVal → Option JVal
  | c, s, some v => writeKey c s v
  | .obj fs, .prop s, none => some (.obj (fs.filter (fun kv => !(kv.1 == s))))
  | .obj fs, .idx n, none => some (.obj (fs.filter (fun kv => !(kv.1 == toString n))))
  | .arr xs, .idx n, none => some (.arr (setIdxPad xs n .null))
  | .arr xs, .prop s, none =>
      match s.toNat? with
      | some n => some (.arr (setIdxPad xs n .null))
      | none => none
  | .null, _, none => none
  | c, _, none => some c

/-- Writing a mutated child back into the node it was read from.  Only
reference links (object fields, array slots) alias back into the parent;
this is only ever reached on the reference link that `getSeg` resolved. -/
def setSeg (t : JVal) (s : Seg) (ch : JVal) : JVal :=
  match t, s with
  | .obj fs, .prop k => .obj (setField fs k ch)
  | .obj fs, .idx n => .obj (setField fs (toString n) ch)
  | .arr xs, .idx n => .arr (xs.set n ch)
  | .arr xs, .prop k =>
      match k.toNat? with
      | some n => .arr (xs.set n ch)
      | none => t
  | _, _ => t

/-- In-place mutation of the live node addressed by a path: resolve the node
exactly as `get` does and apply `f` to it through the alias.  `none` models
the `TypeError` thrown when an intermediate link is missing, or an `f` that
itself throws (e.g. `.push` on a non-array). -/
def updateAt : JPath → (JVal → Option JVal) → JVal → Option JVal
  | [], f, t => f t
  | s :: rest, f, t =>
      match getSeg t s with
      | none => none
      | some ch =>
          match updateAt rest f ch with
          | none => none
          | some ch2 => some (setSeg t s ch2)

/-- `Glue.prototype.set`'s write: split the path at the rightmost of the last
`.` and the last `[` into container path and leaf suffix, resolve the live
container with `get`, and assign through it.  An empty path degenerates to
assigning the empty-string field on the target itself, as the string surgery
of the source does. -/
def jsetWrite (p : JPath) (v : JVal) (t : JVal) : Option JVal :=
  match p.getLast? with
  | none => writeKey t (.prop "") v
  | some last => updateAt p.dropLast (fun c => writeKey c last v) t

/-- A registered observer: opaque callback and context identities plus the
operation-name filter (empty means "match every operation"). -/
structure Listener where
  cb : Nat
  ctx : Nat
  operations : List String
deriving Repr, DecidableEq

/-- The observer registry: `specific` maps exact paths to observers,
`generic` maps the base path of an `"…[]"` wildcard key to observers.
Association lists model JavaScript object key insertion order. -/
structure Registry where
  specific : List (JPath × List Listener)
  generic : List (JPath × List Listener)
deriving Repr

/-- The message delivered to one observer. -/
structure Msg where
  operation : String
  value : Option JVal
  index : Option Nat
deriving Repr

/-- One callback invocation recorded by the notifier: which callback, the
`this` context, and the message. -/
structure Dispatch where
  cb : Nat
  ctx : Nat
  msg : Msg
deriving Repr

/-- `invoke` inside `Glue.prototype.notify`: dispatch only when the old and
current snapshots differ under deep equality, build the message from the live
value (plus the index for generic passes), and honour the listener's
operation filter. -/
def invoke (op : String) (l : Listener) (currentValue oldValueClone currentValueClone : Option JVal)
    (index : Option Nat) : List Dispatch :=
  if isEqualOpt currentValueClone oldValueClone then []
  else
    let msg : Msg := ⟨op, currentValue, index⟩
    if l.operations.isEmpty then [⟨l.cb, l.ctx, msg⟩]
    else if l.operations.contains op then [⟨l.cb, l.ctx, msg⟩]
    else []

/-- Listener list registered under a generic base path (`undefined` iterates
as empty). -/
def lookupGen (gs : List (JPath × List Listener)) (p : JPath) : List Listener :=
  match gs.find? (fun e => e.1 == p) with
  | some e => e.2
  | none => []

/-- The dot-separated segment groups of a parsed path: a new group starts at
every `.`-separated property (bracket segments stay attached to the group of
the property they index into). -/
def groupSegs : JPath → List JPath
  | [] => []
  | s :: rest =>
      match groupSegs rest with
      | [] => [[s]]
      | g :: gs =>
          match g.head? with
          | some (.prop _) => [s] :: g :: gs
          | _ => (s :: g) :: gs

/-- The increasing dot-prefixes of a path (`utils.first(segments, i+1)`
joined back together). -/
def dotPrefixes (p : JPath) : List JPath :=
  (List.range (groupSegs p).length).map (fun i => ((groupSegs p).take (i + 1)).flatten)

/-- `Glue.permutateKey`: for every dot-prefix of the mutated path that ends
in a bracket index, record the specific prefix, its generic key (the index
stripped, i.e. the base path of the `"…[]"` key), and the index. -/
def permutateKey (p : JPath) : List (JPath × JPath × Nat) :=
  (dotPrefixes p).filterMap (fun pre =>
    match pre.getLast? with
    | some (.idx n) => some (pre, pre.dropLast, n)
    | _ => none)

/-- The `.length` read that `invokeGeneric` performs on a value read from a
snapshot: throws (`none`) on `undefined`/`null`, a number on arrays and
strings, and `undefined` (`some none`) on other values. -/
def lengthRead : Option JVal → Option (Option Nat)
  | none => none
  | some .null => none
  | some (.arr xs) => some (some xs.length)
  | some (.str s) => some (some s.length)
  | some _ => some none

/-- JavaScript `>` on two possibly-`undefined` lengths: false whenever either
side is `undefined`. -/
def jsGT : Option Nat → Option Nat → Bool
  | some a, some b => decide (b < a)
  | _, _ => false

/-- `collection[index]` inside the per-index loop of `invokeGeneric` (never
reached on `undefined`/`null`, since their `.length` reads throw first). -/
def indexNat : Option JVal → Nat → Option JVal
  | some (.arr xs), n => xs[n]?
  | some (.obj fs), n => (fs.find? (fun kv => kv.1 == toString n)).map Prod.snd
  | _, _ => none

/-- The per-array-child pass of `invokeGeneric` (step 4 of the notifier):
for each affected generic key, read the array at its base from both
snapshots, compute `maxRange`, and walk the index range — reversed exactly
when the mutation set the reverse flag — comparing old and current elements.
Returns the dispatches made before any `.length` `TypeError`, plus the error
flag; an error aborts the remaining keys. -/
def part2Go (op : String) (rev : Bool) (oldClone curClone : JVal) :
    List (JPath × List Listener) → List Dispatch × Bool
  | [] => ([], false)
  | (g, ls) :: rest =>
      match lengthRead (jget oldClone g), lengthRead (jget curClone g) with
      | some oldLen, some curLen =>
          let mr : Option Nat := if jsGT oldLen curLen then oldLen else curLen
          let rng : List Nat :=
            match mr with
            | none => []
            | some m => if rev then (List.range m).reverse else List.range m
          let ds := rng.flatMap (fun i => ls.flatMap (fun l =>
            invoke op l (indexNat (jget curClone g) i) (indexNat (jget oldClone g) i)
              (indexNat (jget curClone g) i) (some i)))
          let rec2 := part2Go op rev oldClone curClone rest
          (ds ++ rec2.1, rec2.2)
      | _, _ => ([], true)

/-- The number of bracket (index) segments of a path. -/
def bracketCount (p : JPath) : Nat :=
  (p.filter (fun s => match s with | .idx _ => true | _ => false)).length

/-- Whether the affected-children pass of the notifier treats the generic
registry key based at `g` as a child of the mutated key.  The source builds
the matcher as `new RegExp("^" + key.replace('[', '\\\[').replace(']', '\\\]'))`;
`String.replace` with a string pattern replaces only the FIRST occurrence, so
a key with two or more bracket groups yields a pattern whose later brackets
form a character class (e.g. `^a\[0\][1]`), which requires a digit character
right after the first closing bracket — a position where a rendered registry
key (whose property names are the path grammar's digit-free identifiers) can
only carry `.`, `[` or `]`.  Such keys therefore match no generic child at
all.  With at most one bracket group the escaped pattern is a literal prefix
test on the rendered keys, modelled segment-wise (the unescaped `.`, which
matches any single character, cannot tell apart the structured keys this
development quantifies over). -/
def matchesAffected (key g : JPath) : Bool :=
  if 2 ≤ bracketCount key then false else key.isPrefixOf g

/-- `Glue.prototype.notify`: clone the now-mutated target, run the exhaustive
specific-registry pass, then `invokeGeneric` (the permutation pass and the
array-children pass).  The trace lists dispatches in source order; the flag
records a `TypeError` escaping from the array-children pass. -/
def notify (op : String) (key : JPath) (reverse : Bool) (oldClone target : JVal)
    (reg : Registry) : List Dispatch × Bool :=
  let currentClone := deepClone target
  let sp := reg.specific.flatMap (fun e =>
    let currentValue := jget target e.1
    let currentValueClone := jget currentClone e.1
    let oldValueClone := jget oldClone e.1
    e.2.flatMap (fun l => invoke op l currentValue oldValueClone currentValueClone none))
  let p1 := (permutateKey key).flatMap (fun e =>
    (lookupGen reg.generic e.2.1).flatMap (fun l =>
      invoke op l (jget target e.1) (jget oldClone e.1) (jget currentClone e.1) (some e.2.2)))
  let affected := reg.generic.filter (fun e => matchesAffected key e.1)
  let p2 := part2Go op reverse oldClone currentClone affected
  (sp ++ p1 ++ p2.1, p2.2)

/-- Result of one mutating call: the (possibly already mutated) target, the
dispatch trace, and whether a `TypeError` escaped. -/
structure OpOut where
  target : JVal
  ds : List Dispatch
  err : Bool
deriving Repr

/-- Result of `filter`/`sortBy`, which also hand a collection back to the
caller. -/
structure CollOut where
  target : JVal
  ds : List Dispatch
  err : Bool
  ret : Option JVal
deriving Repr

/-- `Glue.prototype.set`: snapshot, write through `baseKeyAndSuffix`, then
notify with operation `"set"`. -/
def setOp (key : JPath) (v : JVal) (t : JVal) (reg : Registry) : OpOut :=
  let oldTargetClone := deepClone t
  match jsetWrite key v t with
  | none => ⟨t, [], true⟩
  | some t1 =>
      let n := notify "set" key false oldTargetClone t1 reg
      ⟨t1, n.1, n.2⟩

/-- `Glue.prototype.push`: snapshot, `get` the live collection (the empty
path is the root-array form), append in place — `.push` on a non-array
throws — then notify with operation `"push"`. -/
def pushOp (key : JPath) (item : JVal) (t : JVal) (reg : Registry) : OpOut :=
  let oldTargetClone := deepClone t
  match updateAt key (fun c =>
      match c with
      | .arr xs => some (.arr (xs ++ [item]))
      | _ => none) t with
  | none => ⟨t, [], true⟩
  | some t1 =>
      let n := notify "push" key false oldTargetClone t1 reg
      ⟨t1, n.1, n.2⟩

/-- `Glue.prototype.remove`: a path ending in `[n]` splices index `n` out of
the containing array; otherwise the last dot-segment's property is deleted
from its container and — a quirk of the source — the path notified for a
multi-segment property path is the parent path, the popped last segment
excluded.  Deleting a named property from an array container leaves a hole
and is outside the copy-safe model. -/
def removeOp (key : JPath) (t : JVal) (reg : Registry) : OpOut :=
  let oldTargetClone := deepClone t
  match key.getLast? with
  | some (.idx n) =>
      match updateAt key.dropLast (fun c =>
          match c with
          | .arr xs => some (.arr (xs.eraseIdx n))
          | _ => none) t with
      | none => ⟨t, [], true⟩
      | some t1 =>
          let n2 := notify "remove" key false oldTargetClone t1 reg
          ⟨t1, n2.1, n2.2⟩
  | _ =>
      let last : String := match key.getLast? with | some (.prop s) => s | _ => ""
      let notifyKey := if 1 < (groupSegs key).length then key.dropLast else key
      match updateAt key.dropLast (fun c =>
          match c with
          | .obj fs => some (.obj (fs.filter (fun kv => !(kv.1 == last))))
          | .null => none
          | .arr _ => none
          | c2 => some c2) t with
      | none => ⟨t, [], true⟩
      | some t1 =>
          let n2 := notify "remove" notifyKey false oldTargetClone t1 reg
          ⟨t1, n2.1, n2.2⟩

/-- The element/index pairs of a collection, in order. -/
def withIdx (xs : List JVal) : List (JVal × Nat) :=
  (xs.enum).map (fun p => (p.2, p.1))

/-- `Glue.baseKey`: `key.replace(/\[[^\[]*\]$/, '')` strips one trailing
bracket group, so a path ending in an index segment loses that segment and
any other path is returned unchanged. -/
def baseKey (p : JPath) : JPath :=
  match p.getLast? with
  | some (.idx _) => p.dropLast
  | _ => p

/-- `Glue.prototype.filter`: snapshot, splice out — walking backwards, so
each element is seen at its original index — every element the predicate
rejects, then notify with operation `"filter"` and the reverse flag set, and
return `this.get(Glue.baseKey(key))`: the filtered collection read back live
for a property-final key, its parent collection for a bracket-final key.
Only array collections are modelled (on a non-array the source's backwards
loop never runs). -/
def filterOp (key : JPath) (pred : JVal → Nat → Bool) (t : JVal) (reg : Registry) : CollOut :=
  let oldTargetClone := deepClone t
  match updateAt key (fun c =>
      match c with
      | .arr xs => some (.arr ((withIdx xs).filterMap
          (fun p => if pred p.1 p.2 then some p.1 else none)))
      | _ => none) t with
  | none => ⟨t, [], true, none⟩
  | some t1 =>
      let n := notify "filter" key true oldTargetClone t1 reg
      ⟨t1, n.1, n.2, jget t1 (baseKey key)⟩

/-- Stable insertion of `a` after every element strictly below it. -/
def insertByLt {α : Type} (lt : α → α → Bool) (a : α) : List α → List α
  | [] => [a]
  | b :: bs => if lt b a then b :: insertByLt lt a bs else a :: b :: bs

/-- `utils.sortBy` as realised by the engine's stable `Array.prototype.sort`
with the comparator `valA < valB ? -1 : valA > valB ? 1 : 0`: the unique
stable sorted rearrangement, here produced by stable insertion sort. -/
def sortByKey {α : Type} (keyFn : α → Int) (l : List α) : List α :=
  l.foldr (insertByLt (fun x y => decide (keyFn x < keyFn y))) []

/-- The element/original-index pairs of the collection, stably sorted by the
key of the element. -/
def sortPairs (keyFn : JVal → Int) (xs : List JVal) : List (JVal × Nat) :=
  sortByKey (fun p => keyFn p.1) (withIdx xs)

/-- `Glue.prototype.sortBy`: pair each element with its index, stably sort
the pairs by the key of the element, strip the indices, write the sorted
array back (replacing the whole target for the root path, assigning through
`baseKeyAndSuffix` otherwise), then notify — with operation `"filter"` and
the reverse flag set, exactly as the source does — and return the sorted
array.  Only array collections are modelled. -/
def sortByOp (key : JPath) (keyFn : JVal → Int) (t : JVal) (reg : Registry) : CollOut :=
  match jget t key with
  | some (.arr xs) =>
      let oldTargetClone := deepClone t
      let sorted : JVal := .arr ((sortPairs keyFn xs).map Prod.fst)
      let write : Option JVal :=
        if key = [] then some sorted else jsetWrite key sorted t
      match write with
      | none => ⟨t, [], true, none⟩
      | some t1 =>
          let n := notify "filter" key true oldTargetClone t1 reg
          ⟨t1, n.1, n.2, some sorted⟩
  | _ => ⟨t, [], true, none⟩

/-- The leaf suffix that `baseKeyAndSuffix` yields (the empty property name
for the empty path, as the string surgery of the source yields). -/
def lastSeg (p : JPath) : Seg :=
  match p.getLast? with
  | some s => s
  | none => .prop ""

/-- `swap`'s first assignment, through the container captured for `loc1`. -/
def swapFirst (loc1 loc2 : JPath) (t : JVal) : Option JVal :=
  updateAt loc1.dropLast (fun c => writeKeyOpt c (lastSeg loc1) (jget t loc2)) t

/-- `swap`'s second assignment.  The container alias for `loc2` was captured
before the first write: when the first write replaced the node at `loc1` on
the way to `loc2`'s container, the alias is detached and the assignment,
though it may still throw on a missing container, does not reach the
target. -/
def swapSecond (loc1 loc2 : JPath) (t t1 : JVal) : Option JVal :=
  if loc1.isPrefixOf loc2.dropLast then
    match jget t loc2.dropLast with
    | none => none
    | some c2 => if (writeKeyOpt c2 (lastSeg loc2) (jget t loc1)).isSome then some t1 else none
  else updateAt loc2.dropLast (fun c => writeKeyOpt c (lastSeg loc2) (jget t loc1)) t1

/-- `Glue.prototype.swap`: snapshot, read both values and both containers
before mutating, write each value into the other slot through the captured
container aliases, then notify `"swap"` for the first location and — only
when the two location strings differ — for the second. -/
def swapOp (loc1 loc2 : JPath) (t : JVal) (reg : Registry) : OpOut :=
  let oldTargetClone := deepClone t
  match swapFirst loc1 loc2 t with
  | none => ⟨t, [], true⟩
  | some t1 =>
      match swapSecond loc1 loc2 t t1 with
      | none => ⟨t1, [], true⟩
      | some t2 =>
          let n1 := notify "swap" loc1 false oldTargetClone t2 reg
          if n1.2 then ⟨t2, n1.1, true⟩
          else if loc1 = loc2 then ⟨t2, n1.1, false⟩
          else
            let n2 := notify "swap" loc2 false oldTargetClone t2 reg
            ⟨t2, n1.1 ++ n2.1, n2.2⟩

/-- `utils.difference`: the elements of the first list not contained in the
others. -/
def difference (l remove2 : List String) : List String :=
  l.filter (fun v => !(remove2.contains v))

/-- The per-key body of `Glue.prototype.removeObserver` on one listener
list: when an operations filter is present, subtract it from **every**
listener of the key, then reject a listener when — filter and context given —
its operations ran empty and its context matches; with only a context, when
the context matches; with only a filter, when its operations ran empty; with
neither, unconditionally. -/
def removeObsList (operations : List String) (ctx : Option Nat) (ls : List Listener) :
    List Listener :=
  let ls2 := if operations.isEmpty then ls
    else ls.map (fun l => { l with operations := difference l.operations operations })
  ls2.filter (fun l =>
    !(if !operations.isEmpty && ctx.isSome then
        l.operations.isEmpty && ctx = some l.ctx
      else if ctx.isSome then
        ctx = some l.ctx
      else if !operations.isEmpty then
        l.operations.isEmpty
      else true))

/-- `removeObserver` acting on one registry half for one key: rewrite the
key's listener list and delete the key entirely when no listener remains. -/
def removeObsKey (key : JPath) (operations : List String) (ctx : Option Nat)
    (m : List (JPath × List Listener)) : List (JPath × List Listener) :=
  (m.map (fun e => if e.1 = key then (e.1, removeObsList operations ctx e.2) else e)).filter
    (fun e => !(e.1 = key && e.2.isEmpty))

/-! ### Reflexivity of `utils.isEqual` on well-formed values -/

theorem find_self_of_noDup {fs : List (String × JVal)} {kv : String × JVal}
    (hnd : noDupKeys (keysOf fs) = true) (hm : kv ∈ fs) :
    fs.find? (fun g => g.1 == kv.1) = some kv := by
  induction fs with
  | nil => cases hm
  | cons hd rest ih =>
    have hnd2 : hd.1 ∉ keysOf rest ∧ noDupKeys (keysOf rest) = true := by
      have h0 : noDupKeys (hd.1 :: keysOf rest) = true := hnd
      simp [noDupKeys, Bool.and_eq_true] at h0
      exact ⟨by simpa using h0.1, h0.2⟩
    rcases List.mem_cons.mp hm with heq | hm2
    · subst heq
      simp [List.find?]
    · have hk : kv.1 ∈ keysOf rest := List.mem_map_of_mem Prod.fst hm2
      have hne : (hd.1 == kv.1) = false := by
        apply beq_eq_false_iff_ne.mpr
        intro hEq
        exact hnd2.1 (hEq ▸ hk)
      simp [List.find?, hne, ih hnd2.2 hm2]

mutual

theorem isEqual_refl : (v : JVal) → wf v = true → isEqual v v = true
  | .null, _ => rfl
  | .bool b, _ => by simp [isEqual]
  | .num a, _ => by simp [isEqual]
  | .str s, _ => by simp [isEqual]
  | .arr xs, h => by
      have hx : wfList xs = true := by simpa [wf] using h
      simp [isEqual, isEqualList_refl xs hx]
  | .obj fs, h => by
      have hx : noDupKeys (keysOf fs) = true ∧ wfFields fs = true := by
        simpa [wf, Bool.and_eq_true] using h
      simp [isEqual, isEqualFieldsG_refl fs fs hx.2 (fun kv hkv => find_self_of_noDup hx.1 hkv)]
termination_by v _ => sizeOf v

theorem isEqualList_refl : (xs : List JVal) → wfList xs = true → isEqualList xs xs = true
  | [], _ => rfl
  | x :: xs, h => by
      have hx : wf x = true ∧ wfList xs = true := by
        simpa [wfList, Bool.and_eq_true] using h
      simp [isEqualList, isEqual_refl x hx.1, isEqualList_refl xs hx.2]
termination_by xs _ => sizeOf xs

theorem isEqualFieldsG_refl : (fs gs : List (String × JVal)) → wfFields fs = true →
    (∀ kv ∈ fs, gs.find? (fun g => g.1 == kv.1) = some kv) → isEqualFields fs gs = true
  | [], _, _, _ => rfl
  | (k1, v1) :: rest, gs, h, hfind => by
      have hx : wf v1 = true ∧ wfFields rest = true := by
        simpa [wfFields, Bool.and_eq_true] using h
      have hf : gs.find? (fun g => g.1 == k1) = some (k1, v1) := by
        simpa using hfind (k1, v1) (by simp)
      simp [isEqualFields, hf, isEqual_refl v1 hx.1,
        isEqualFieldsG_refl rest gs hx.2 (fun kv2 hkv2 => hfind kv2 (by simp [hkv2]))]
termination_by fs _ _ _ => sizeOf fs

end

/-- Absence-aware reflexivity: a well-formed (or absent) value is deep-equal
to itself. -/
def wfOpt : Option JVal → Bool
  | none => true
  | some v => wf v

theorem isEqualOpt_refl (o : Option JVal) (h : wfOpt o = true) : isEqualOpt o o = true := by
  cases o with
  | none => rfl
  | some v => simpa [isEqualOpt] using isEqual_refl v h

/-! ### Well-formedness propagates through reads -/

theorem wfFields_mem {fs : List (String × JVal)} {kv : String × JVal}
    (h : wfFields fs = true) (hm : kv ∈ fs) : wf kv.2 = true := by
  induction fs with
  | nil => cases hm
  | cons hd rest ih =>
    have hx : wf hd.2 = true ∧ wfFields rest = true := by
      simpa [wfFields, Bool.and_eq_true] using h
    rcases List.mem_cons.mp hm with heq | hm2
    · subst heq; exact hx.1
    · exact ih hx.2 hm2

theorem wfList_mem {xs : List JVal} {v : JVal}
    (h : wfList xs = true) (hm : v ∈ xs) : wf v = true := by
  induction xs with
  | nil => cases hm
  | cons hd rest ih =>
    have hx : wf hd = true ∧ wfList rest = true := by
      simpa [wfList, Bool.and_eq_true] using h
    rcases List.mem_cons.mp hm with heq | hm2
    · subst heq; exact hx.1
    · exact ih hx.2 hm2

theorem getSeg_wf {t c : JVal} {s : Seg} (h : wf t = true) (hg : getSeg t s = some c) :
    wf c = true := by
  cases t with
  | obj fs =>
    have hfs : wfFields fs = true := by
      simp [wf, Bool.and_eq_true] at h
      exact h.2
    cases s with
    | prop s0 =>
      simp only [getSeg, Option.map_eq_some'] at hg
      obtain ⟨kv, hkv, hceq⟩ := hg
      exact hceq ▸ wfFields_mem hfs (List.mem_of_find?_eq_some hkv)
    | idx n =>
      simp only [getSeg, Option.map_eq_some'] at hg
      obtain ⟨kv, hkv, hceq⟩ := hg
      exact hceq ▸ wfFields_mem hfs (List.mem_of_find?_eq_some hkv)
  | arr xs =>
    have hxs : wfList xs = true := by simpa [wf] using h
    cases s with
    | idx n =>
      simp only [getSeg] at hg
      exact wfList_mem hxs (List.getElem?_mem hg)
    | prop s0 =>
      simp only [getSeg, Option.bind_eq_some] at hg
      obtain ⟨n, _, hn⟩ := hg
      exact wfList_mem hxs (List.getElem?_mem hn)
  | null => simp [getSeg] at hg
  | bool b => simp [getSeg] at hg
  | num a => simp [getSeg] at hg
  | str s0 => simp [getSeg] at hg

theorem jget_wf {t c : JVal} {p : JPath} (h : wf t = true) (hg : jget t p = some c) :
    wf c = true := by
  induction p generalizing t with
  | nil => simp [jget] at hg; exact hg ▸ h
  | cons s rest ih =>
    simp only [jget] at hg
    cases hgs : getSeg t s with
    | none => rw [hgs] at hg; cases hg
    | some ch =>
      rw [hgs] at hg
      exact ih (getSeg_wf h hgs) hg

theorem jget_wfOpt {t : JVal} {p : JPath} (h : wf t = true) : wfOpt (jget t p) = true := by
  cases hg : jget t p with
  | none => rfl
  | some c => simpa [wfOpt] using jget_wf h hg

theorem indexNat_wfOpt {o : Option JVal} {n : Nat} (h : wfOpt o = true) :
    wfOpt (indexNat o n) = true := by
  cases o with
  | none => rfl
  | some v =>
    cases v with
    | arr xs =>
      cases hg : xs[n]? with
      | none => simp [indexNat, hg, wfOpt]
      | some c =>
        have hxs : wfList xs = true := by simpa [wfOpt, wf] using h
        simp only [indexNat, hg, wfOpt]
        exact wfList_mem hxs (List.getElem?_mem hg)
    | obj fs =>
      cases hf : fs.find? (fun kv => kv.1 == toString n) with
      | none => simp [indexNat, hf, wfOpt]
      | some kv =>
        have hfs : wfFields fs = true := by
          simp [wfOpt, wf, Bool.and_eq_true] at h
          exact h.2
        simp only [indexNat, hf, wfOpt, Option.map_some']
        exact wfFields_mem hfs (List.mem_of_find?_eq_some hf)
    | null => rfl
    | bool b => rfl
    | num a => rfl
    | str s => rfl

/-! ### A notify pass over two equal snapshots dispatches nothing -/

theorem invoke_eq_nil {op : String} {l : Listener} {cv o1 o2 : Option JVal} {idx : Option Nat}
    (h : isEqualOpt o2 o1 = true) : invoke op l cv o1 o2 idx = [] := by
  simp [invoke, h]

theorem part2Go_eq_fst_nil (op : String) (rev : Bool) (t : JVal)
    (lst : List (JPath × List Listener)) (hwf : wf t = true) :
    (part2Go op rev t t lst).1 = [] := by
  induction lst with
  | nil => rfl
  | cons e rest ih =>
    obtain ⟨g, ls⟩ := e
    simp only [part2Go]
    cases hl : lengthRead (jget t g) with
    | none => simp
    | some len =>
      simp only
      have hiv : ∀ i ∈ (match (if jsGT len len then len else len) with
          | none => ([] : List Nat)
          | some m => if rev then (List.range m).reverse else List.range m),
          ls.flatMap (fun l => invoke op l (indexNat (jget t g) i) (indexNat (jget t g) i)
            (indexNat (jget t g) i) (some i)) = [] := by
        intro i _
        apply List.flatMap_eq_nil_iff.mpr
        intro l _
        exact invoke_eq_nil (isEqualOpt_refl _ (indexNat_wfOpt (jget_wfOpt hwf)))
      rw [List.flatMap_eq_nil_iff.mpr hiv]
      simpa using ih

theorem notify_eq_fst_nil (op : String) (key : JPath) (rev : Bool) (t : JVal) (reg : Registry)
    (hwf : wf t = true) : (notify op key rev t t reg).1 = [] := by
  simp only [notify, deepClone]
  rw [List.flatMap_eq_nil_iff.mpr, List.flatMap_eq_nil_iff.mpr,
    part2Go_eq_fst_nil op rev t _ hwf]
  · simp
  · intro e _
    apply List.flatMap_eq_nil_iff.mpr
    intro l _
    exact invoke_eq_nil (isEqualOpt_refl _ (jget_wfOpt hwf))
  · intro e _
    apply List.flatMap_eq_nil_iff.mpr
    intro l _
    exact invoke_eq_nil (isEqualOpt_refl _ (jget_wfOpt hwf))

/-! ### Write/read lens lemmas for the live-mutation model -/

theorem find_setField (fs : List (String × JVal)) (k : String) (v : JVal) :
    (setField fs k v).find? (fun g => g.1 == k) = some (k, v) := by
  induction fs with
  | nil => simp [setField, List.find?]
  | cons hd rest ih =>
    by_cases hk : (hd.1 == k) = true
    · simp [setField, hk, List.find?]
    · simp only [setField, Bool.not_eq_true] at hk
      simp [setField, hk, List.find?, ih]

theorem setField_of_find {fs : List (String × JVal)} {k : String} {v : JVal}
    (h : fs.find? (fun g => g.1 == k) = some (k, v)) : setField fs k v = fs := by
  induction fs with
  | nil => simp [List.find?] at h
  | cons hd rest ih =>
    by_cases hk : (hd.1 == k) = true
    · simp only [List.find?, hk, Option.some_inj] at h
      subst h
      simp [setField]
    · simp only [Bool.not_eq_true] at hk
      simp only [List.find?, hk] at h
      simp [setField, hk, ih h]

theorem setOfSame {xs : List JVal} {n : Nat} {a : JVal} (h : xs[n]? = some a) :
    xs.set n a = xs := by
  have hl : n < xs.length := (List.getElem?_eq_some.mp h).1
  apply List.ext_getElem?
  intro i
  rw [List.getElem?_set]
  split
  · next heq => subst heq; simp [hl, h]
  · rfl

theorem setIdxPad_get (xs : List JVal) (n : Nat) (v : JVal) :
    (setIdxPad xs n v)[n]? = some v := by
  unfold setIdxPad
  split
  · next hl => exact List.getElem?_set_self hl
  · next hl =>
    have hge : xs.length ≤ n := Nat.le_of_not_lt hl
    have hlen : (xs ++ List.replicate (n - xs.length) JVal.null).length = n := by
      simp [List.length_append, List.length_replicate]
      omega
    calc (xs ++ List.replicate (n - xs.length) JVal.null ++ [v])[n]?
        = (xs ++ List.replicate (n - xs.length) JVal.null ++ [v])[(xs ++ List.replicate (n - xs.length) JVal.null).length]? := by rw [hlen]
      _ = some v := List.getElem?_concat_length _ v

theorem setField_idem (fs : List (String × JVal)) (k : String) (v : JVal) :
    setField (setField fs k v) k v = setField fs k v :=
  setField_of_find (find_setField fs k v)

theorem setIdxPad_idem (xs : List JVal) (n : Nat) (v : JVal) :
    setIdxPad (setIdxPad xs n v) n v = setIdxPad xs n v := by
  have h := setIdxPad_get xs n v
  have hl : n < (setIdxPad xs n v).length := (List.getElem?_eq_some.mp h).1
  generalize hR : setIdxPad xs n v = R at h hl ⊢
  unfold setIdxPad
  rw [if_pos hl]
  exact setOfSame h

/-- Reading back through the link just written: the rewritten node holds the
new child where `getSeg` found the old one. -/
theorem getSeg_setSeg {t ch : JVal} {s : Seg} (ch2 : JVal) (h : getSeg t s = some ch) :
    getSeg (setSeg t s ch2) s = some ch2 := by
  cases t with
  | obj fs =>
    cases s with
    | prop s0 => simp [getSeg, setSeg, find_setField]
    | idx n => simp [getSeg, setSeg, find_setField]
  | arr xs =>
    cases s with
    | idx n =>
      have hl : n < xs.length := (List.getElem?_eq_some.mp h).1
      simp [getSeg, setSeg, List.getElem?_set_self hl]
    | prop s0 =>
      simp only [getSeg, Option.bind_eq_some] at h
      obtain ⟨n, hn, hx⟩ := h
      have hl : n < xs.length := (List.getElem?_eq_some.mp hx).1
      simp [getSeg, setSeg, hn, List.getElem?_set_self hl]
  | null => simp [getSeg] at h
  | bool b => simp [getSeg] at h
  | num a => simp [getSeg] at h
  | str s0 => simp [getSeg] at h

/-- Writing the child `getSeg` just produced back through its own link is a
no-op. -/
theorem setSeg_same {t ch : JVal} {s : Seg} (h : getSeg t s = some ch) :
    setSeg t s ch = t := by
  cases t with
  | obj fs =>
    cases s with
    | prop s0 =>
      simp only [getSeg, Option.map_eq_some'] at h
      obtain ⟨⟨a, b⟩, hkv, hc⟩ := h
      have ha : a = s0 := by simpa using List.find?_some hkv
      subst ha
      simp only at hc
      subst hc
      simp [setSeg, setField_of_find hkv]
    | idx n =>
      simp only [getSeg, Option.map_eq_some'] at h
      obtain ⟨⟨a, b⟩, hkv, hc⟩ := h
      have ha : a = toString n := by simpa using List.find?_some hkv
      subst ha
      simp only at hc
      subst hc
      simp [setSeg, setField_of_find hkv]
  | arr xs =>
    cases s with
    | idx n => simp [setSeg, setOfSame h]
    | prop s0 =>
      simp only [getSeg, Option.bind_eq_some] at h
      obtain ⟨n, hn, hx⟩ := h
      simp [setSeg, hn, setOfSame hx]
  | null => simp [getSeg] at h
  | bool b => simp [getSeg] at h
  | num a => simp [getSeg] at h
  | str s0 => simp [getSeg] at h

/-- The central lens lemma: when the path resolves and the in-place mutation
succeeds, `updateAt` succeeds and the mutated node is read back at the same
path. -/
theorem updateAt_lens {p : JPath} {f : JVal → Option JVal} {t c c2 : JVal}
    (hg : jget t p = some c) (hf : f c = some c2) :
    ∃ t2, updateAt p f t = some t2 ∧ jget t2 p = some c2 := by
  induction p generalizing t with
  | nil =>
    simp only [jget, Option.some_inj] at hg
    subst hg
    exact ⟨c2, by simp [updateAt, hf], by simp [jget]⟩
  | cons s rest ih =>
    simp only [jget] at hg
    cases hgs : getSeg t s with
    | none => rw [hgs] at hg; cases hg
    | some ch =>
      rw [hgs] at hg
      obtain ⟨ch2, hch2, hget2⟩ := ih hg
      refine ⟨setSeg t s ch2, ?_, ?_⟩
      · simp [updateAt, hgs, hch2]
      · simp [jget, getSeg_setSeg ch2 hgs, hget2]

/-- When the path resolves but the mutation throws, `updateAt` throws. -/
theorem updateAt_none {p : JPath} {f : JVal → Option JVal} {t c : JVal}
    (hg : jget t p = some c) (hf : f c = none) : updateAt p f t = none := by
  induction p generalizing t with
  | nil =>
    simp only [jget, Option.some_inj] at hg
    subst hg
    simp [updateAt, hf]
  | cons s rest ih =>
    simp only [jget] at hg
    cases hgs : getSeg t s with
    | none => rw [hgs] at hg; cases hg
    | some ch =>
      rw [hgs] at hg
      simp [updateAt, hgs, ih hg]

/-- A pointwise-identity mutation of a resolving path leaves the target
unchanged. -/
theorem updateAt_same {p : JPath} {f : JVal → Option JVal} {t c : JVal}
    (hg : jget t p = some c) (hf : f c = some c) : updateAt p f t = some t := by
  induction p generalizing t with
  | nil =>
    simp only [jget, Option.some_inj] at hg
    subst hg
    simp [updateAt, hf]
  | cons s rest ih =>
    simp only [jget] at hg
    cases hgs : getSeg t s with
    | none => rw [hgs] at hg; cases hg
    | some ch =>
      rw [hgs] at hg
      simp [updateAt, hgs, ih hg, setSeg_same hgs]

/-- `setSeg` is idempotent in its written child. -/
theorem setSeg_idem (t : JVal) (s : Seg) (c2 : JVal) :
    setSeg (setSeg t s c2) s c2 = setSeg t s c2 := by
  cases t with
  | obj fs =>
    cases s with
    | prop s0 => simp [setSeg, setField_idem]
    | idx n => simp [setSeg, setField_idem]
  | arr xs =>
    cases s with
    | idx n => simp [setSeg]
    | prop s0 =>
      cases hn : s0.toNat? with
      | none => simp [setSeg, hn]
      | some n => simp [setSeg, hn]
  | null => simp [setSeg]
  | bool b => simp [setSeg]
  | num a => simp [setSeg]
  | str s0 => simp [setSeg]

/-- Idempotent mutations make `updateAt` idempotent. -/
theorem updateAt_idem {p : JPath} {f : JVal → Option JVal} {t t1 : JVal}
    (h : updateAt p f t = some t1)
    (hf : ∀ c c2, f c = some c2 → f c2 = some c2) : updateAt p f t1 = some t1 := by
  induction p generalizing t t1 with
  | nil =>
    simp only [updateAt] at h ⊢
    exact hf t t1 h
  | cons s rest ih =>
    simp only [updateAt] at h
    cases hgs : getSeg t s with
    | none => simp [hgs] at h
    | some ch =>
      simp only [hgs] at h
      cases hup : updateAt rest f ch with
      | none => simp [hup] at h
      | some ch2 =>
        simp only [hup, Option.some_inj] at h
        have ht : t1 = setSeg t s ch2 := h.symm
        subst ht
        simp [updateAt, getSeg_setSeg ch2 hgs, ih hup, setSeg_idem]

/-! ### Round trips through `base[keySuffix] = value` -/

/-- Containers that a JavaScript assignment actually lands in. -/
def isComposite : JVal → Bool
  | .obj _ => true
  | .arr _ => true
  | _ => false

theorem getSeg_composite {c w : JVal} {s : Seg} (h : getSeg c s = some w) :
    isComposite c = true := by
  cases c with
  | obj fs => rfl
  | arr xs => rfl
  | null => simp [getSeg] at h
  | bool b => simp [getSeg] at h
  | num a => simp [getSeg] at h
  | str s0 => simp [getSeg] at h

theorem writeKey_roundtrip {c c2 v : JVal} {s : Seg}
    (h : writeKey c s v = some c2) (hc : isComposite c = true) : getSeg c2 s = some v := by
  cases c with
  | obj fs =>
    cases s with
    | prop s0 =>
      obtain rfl := Option.some_inj.mp h
      simp [getSeg, find_setField]
    | idx n =>
      obtain rfl := Option.some_inj.mp h
      simp [getSeg, find_setField]
  | arr xs =>
    cases s with
    | idx n =>
      obtain rfl := Option.some_inj.mp h
      simp [getSeg, setIdxPad_get]
    | prop s0 =>
      simp only [writeKey] at h
      cases hn : s0.toNat? with
      | none => rw [hn] at h; cases h
      | some n =>
        rw [hn] at h
        obtain rfl := Option.some_inj.mp h
        simp [getSeg, hn, setIdxPad_get]
  | null => simp [isComposite] at hc
  | bool b => simp [isComposite] at hc
  | num a => simp [isComposite] at hc
  | str s0 => simp [isComposite] at hc

theorem writeKey_isSome_of_getSeg {c w : JVal} {s : Seg} (v : JVal)
    (h : getSeg c s = some w) : (writeKey c s v).isSome = true := by
  cases c with
  | obj fs =>
    cases s with
    | prop s0 => simp [writeKey]
    | idx n => simp [writeKey]
  | arr xs =>
    cases s with
    | idx n => simp [writeKey]
    | prop s0 =>
      simp only [getSeg, Option.bind_eq_some] at h
      obtain ⟨n, hn, _⟩ := h
      simp [writeKey, hn]
  | null => simp [getSeg] at h
  | bool b => simp [getSeg] at h
  | num a => simp [getSeg] at h
  | str s0 => simp [getSeg] at h

/-- Writing back the value a slot already holds leaves the container
unchanged. -/
theorem writeKey_same {c w : JVal} {s : Seg} (h : getSeg c s = some w) :
    writeKey c s w = some c := by
  cases c with
  | obj fs =>
    cases s with
    | prop s0 =>
      simp only [getSeg, Option.map_eq_some'] at h
      obtain ⟨⟨a, b⟩, hkv, hc⟩ := h
      have ha : a = s0 := by simpa using List.find?_some hkv
      subst ha
      simp only at hc
      subst hc
      simp [writeKey, setField_of_find hkv]
    | idx n =>
      simp only [getSeg, Option.map_eq_some'] at h
      obtain ⟨⟨a, b⟩, hkv, hc⟩ := h
      have ha : a = toString n := by simpa using List.find?_some hkv
      subst ha
      simp only at hc
      subst hc
      simp [writeKey, setField_of_find hkv]
  | arr xs =>
    cases s with
    | idx n =>
      have hl : n < xs.length := (List.getElem?_eq_some.mp h).1
      simp [writeKey, setIdxPad, hl, setOfSame h]
    | prop s0 =>
      simp only [getSeg, Option.bind_eq_some] at h
      obtain ⟨n, hn, hx⟩ := h
      have hl : n < xs.length := (List.getElem?_eq_some.mp hx).1
      simp [writeKey, hn, setIdxPad, hl, setOfSame hx]
  | null => simp [getSeg] at h
  | bool b => simp [getSeg] at h
  | num a => simp [getSeg] at h
  | str s0 => simp [getSeg] at h

theorem writeKey_idem {c c2 v : JVal} {s : Seg} (h : writeKey c s v = some c2) :
    writeKey c2 s v = some c2 := by
  cases c with
  | obj fs =>
    cases s with
    | prop s0 =>
      obtain rfl := Option.some_inj.mp h
      simp [writeKey, setField_idem]
    | idx n =>
      obtain rfl := Option.some_inj.mp h
      simp [writeKey, setField_idem]
  | arr xs =>
    cases s with
    | idx n =>
      obtain rfl := Option.some_inj.mp h
      simp [writeKey, setIdxPad_idem]
    | prop s0 =>
      simp only [writeKey] at h
      cases hn : s0.toNat? with
      | none => rw [hn] at h; cases h
      | some n =>
        rw [hn] at h
        obtain rfl := Option.some_inj.mp h
        simp [writeKey, hn, setIdxPad_idem]
  | null => simp [writeKey] at h
  | bool b =>
    obtain rfl := Option.some_inj.mp h
    simp [writeKey]
  | num a =>
    obtain rfl := Option.some_inj.mp h
    simp [writeKey]
  | str s0 =>
    obtain rfl := Option.some_inj.mp h
    simp [writeKey]

theorem jget_append (t : JVal) (p1 p2 : JPath) :
    jget t (p1 ++ p2) = (jget t p1).bind (fun c => jget c p2) := by
  induction p1 generalizing t with
  | nil => simp [jget]
  | cons s rest ih =>
    simp only [List.cons_append, jget]
    cases hgs : getSeg t s with
    | none => simp
    | some ch => simp [ih ch]

/-- A second identical `set` write is a no-op. -/
theorem jsetWrite_idem {p : JPath} {v t t1 : JVal} (h : jsetWrite p v t = some t1) :
    jsetWrite p v t1 = some t1 := by
  unfold jsetWrite at h ⊢
  cases hl : p.getLast? with
  | none =>
    rw [hl] at h
    exact writeKey_idem h
  | some last =>
    rw [hl] at h
    exact updateAt_idem h (fun c c2 hc => writeKey_idem hc)

/-- Read-after-write for `set`: when the container at the parent path is an
object or array and the write succeeds, the written value is read back at the
full path. -/
theorem jsetWrite_read {p : JPath} {last : Seg} {v t t1 c : JVal}
    (hlast : p.getLast? = some last) (hps : jget t p.dropLast = some c)
    (hcomp : isComposite c = true) (hw : jsetWrite p v t = some t1) :
    jget t1 p = some v := by
  unfold jsetWrite at hw
  simp only [hlast] at hw
  cases hwk : writeKey c last v with
  | none =>
    rw [updateAt_none hps hwk] at hw
    cases hw
  | some c2 =>
    obtain ⟨t2, hup, hread⟩ :=
      @updateAt_lens p.dropLast (fun c0 => writeKey c0 last v) t c c2 hps hwk
    rw [hup, Option.some_inj] at hw
    subst hw
    have hp : p.dropLast ++ [last] = p := List.dropLast_append_getLast? last hlast
    rw [← hp, jget_append, hread]
    simp [jget, writeKey_roundtrip hwk hcomp]

/-! ### Writes preserve well-formedness -/

theorem keysOf_setField (fs : List (String × JVal)) (k : String) (v : JVal) :
    keysOf (setField fs k v) =
      if (keysOf fs).contains k then keysOf fs else keysOf fs ++ [k] := by
  induction fs with
  | nil => simp [setField, keysOf]
  | cons hd rest ih =>
    by_cases hk : (hd.1 == k) = true
    · have hk2 : hd.1 = k := eq_of_beq hk
      simp [setField, hk, keysOf, List.contains_cons, hk2]
    · simp only [Bool.not_eq_true] at hk
      have hk2 : (k == hd.1) = false := by
        apply beq_eq_false_iff_ne.mpr
        intro hEq
        rw [hEq] at hk
        simp at hk
      simp only [setField, hk, Bool.false_eq_true, if_false, keysOf, List.map_cons]
      rw [show keysOf (setField rest k v) = List.map Prod.fst (setField rest k v) from rfl] at ih
      rw [ih]
      simp only [List.contains_cons, hk2, Bool.false_or, keysOf]
      by_cases hc : ((List.map Prod.fst rest).contains k) = true
      · rw [if_pos hc, if_pos hc]
      · rw [if_neg hc, if_neg hc, List.cons_append]

theorem noDupKeys_iff_nodup (l : List String) : noDupKeys l = true ↔ l.Nodup := by
  induction l with
  | nil => simp [noDupKeys]
  | cons a rest ih =>
    have hmem : (rest.contains a = false) ↔ a ∉ rest := by
      constructor
      · intro hc hm
        have h2 : rest.contains a = true := List.elem_eq_true_of_mem hm
        rw [h2] at hc
        cases hc
      · intro hm
        cases hco : rest.contains a
        · rfl
        · exact absurd (List.mem_of_elem_eq_true hco) hm
    simp only [noDupKeys, Bool.and_eq_true, Bool.not_eq_true', List.nodup_cons]
    rw [ih, hmem]

theorem noDupKeys_setField {fs : List (String × JVal)} (k : String) (v : JVal)
    (h : noDupKeys (keysOf fs) = true) : noDupKeys (keysOf (setField fs k v)) = true := by
  rw [noDupKeys_iff_nodup] at h ⊢
  rw [keysOf_setField]
  by_cases hc : ((keysOf fs).contains k) = true
  · rw [if_pos hc]
    exact h
  · rw [if_neg hc]
    have hnm : k ∉ keysOf fs := fun hm => hc (List.elem_eq_true_of_mem hm)
    rw [(List.perm_append_singleton k (keysOf fs)).nodup_iff, List.nodup_cons]
    exact ⟨hnm, h⟩

theorem wfFields_setField {fs : List (String × JVal)} {k : String} {v : JVal}
    (h : wfFields fs = true) (hv : wf v = true) : wfFields (setField fs k v) = true := by
  induction fs with
  | nil => simp [setField, wfFields, hv]
  | cons hd rest ih =>
    have hx : wf hd.2 = true ∧ wfFields rest = true := by
      simpa [wfFields, Bool.and_eq_true] using h
    by_cases hk : (hd.1 == k) = true
    · simp [setField, hk, wfFields, hv, hx.2]
    · simp only [Bool.not_eq_true] at hk
      simp [setField, hk, wfFields, hx.1, ih hx.2]

theorem wfList_set {xs : List JVal} {v : JVal} (n : Nat)
    (h : wfList xs = true) (hv : wf v = true) : wfList (xs.set n v) = true := by
  induction xs generalizing n with
  | nil => simp [List.set, wfList]
  | cons hd rest ih =>
    have hx : wf hd = true ∧ wfList rest = true := by
      simpa [wfList, Bool.and_eq_true] using h
    cases n with
    | zero => simp [List.set, wfList, hv, hx.2]
    | succ m => simp [List.set, wfList, hx.1, ih m hx.2]

theorem wfList_append {xs ys : List JVal}
    (hx : wfList xs = true) (hy : wfList ys = true) : wfList (xs ++ ys) = true := by
  induction xs with
  | nil => simpa using hy
  | cons hd rest ih =>
    have h2 : wf hd = true ∧ wfList rest = true := by
      simpa [wfList, Bool.and_eq_true] using hx
    simp [wfList, h2.1, ih h2.2]

theorem wfList_replicate_null (n : Nat) : wfList (List.replicate n JVal.null) = true := by
  induction n with
  | zero => rfl
  | succ m ih => simp [List.replicate, wfList, ih, wf]

theorem wfList_setIdxPad {xs : List JVal} {v : JVal} (n : Nat)
    (h : wfList xs = true) (hv : wf v = true) : wfList (setIdxPad xs n v) = true := by
  unfold setIdxPad
  split
  · exact wfList_set n h hv
  · exact wfList_append (wfList_append h (wfList_replicate_null _)) (by simp [wfList, hv])

theorem wf_writeKey {c c2 v : JVal} {s : Seg}
    (hc : wf c = true) (hv : wf v = true) (h : writeKey c s v = some c2) : wf c2 = true := by
  cases c with
  | obj fs =>
    have hx : noDupKeys (keysOf fs) = true ∧ wfFields fs = true := by
      simpa [wf, Bool.and_eq_true] using hc
    cases s with
    | prop s0 =>
      obtain rfl := Option.some_inj.mp h
      simp [wf, Bool.and_eq_true, noDupKeys_setField _ _ hx.1, wfFields_setField hx.2 hv]
    | idx n =>
      obtain rfl := Option.some_inj.mp h
      simp [wf, Bool.and_eq_true, noDupKeys_setField _ _ hx.1, wfFields_setField hx.2 hv]
  | arr xs =>
    have hx : wfList xs = true := by simpa [wf] using hc
    cases s with
    | idx n =>
      obtain rfl := Option.some_inj.mp h
      simpa [wf] using wfList_setIdxPad n hx hv
    | prop s0 =>
      simp only [writeKey] at h
      cases hn : s0.toNat? with
      | none => rw [hn] at h; cases h
      | some n =>
        rw [hn] at h
        obtain rfl := Option.some_inj.mp h
        simpa [wf] using wfList_setIdxPad n hx hv
  | null => simp [writeKey] at h
  | bool b => obtain rfl := Option.some_inj.mp h; exact hc
  | num a => obtain rfl := Option.some_inj.mp h; exact hc
  | str s0 => obtain rfl := Option.some_inj.mp h; exact hc

theorem wf_setSeg {t ch : JVal} {s : Seg}
    (ht : wf t = true) (hch : wf ch = true) : wf (setSeg t s ch) = true := by
  cases t with
  | obj fs =>
    have hx : noDupKeys (keysOf fs) = true ∧ wfFields fs = true := by
      simpa [wf, Bool.and_eq_true] using ht
    cases s with
    | prop s0 =>
      simp [setSeg, wf, Bool.and_eq_true, noDupKeys_setField _ _ hx.1, wfFields_setField hx.2 hch]
    | idx n =>
      simp [setSeg, wf, Bool.and_eq_true, noDupKeys_setField _ _ hx.1, wfFields_setField hx.2 hch]
  | arr xs =>
    have hx : wfList xs = true := by simpa [wf] using ht
    cases s with
    | idx n => simpa [setSeg, wf] using wfList_set n hx hch
    | prop s0 =>
      cases hn : s0.toNat? with
      | none => simpa [setSeg, hn] using ht
      | some n => simpa [setSeg, hn, wf] using wfList_set n hx hch
  | null => simpa [setSeg] using ht
  | bool b => simpa [setSeg] using ht
  | num a => simpa [setSeg] using ht
  | str s0 => simpa [setSeg] using ht

theorem wf_updateAt {p : JPath} {f : JVal → Option JVal} {t t2 : JVal}
    (hF : ∀ c c2, wf c = true → f c = some c2 → wf c2 = true)
    (ht : wf t = true) (h : updateAt p f t = some t2) : wf t2 = true := by
  induction p generalizing t t2 with
  | nil =>
    simp only [updateAt] at h
    exact hF t t2 ht h
  | cons s rest ih =>
    simp only [updateAt] at h
    cases hgs : getSeg t s with
    | none => simp [hgs] at h
    | some ch =>
      simp only [hgs] at h
      cases hup : updateAt rest f ch with
      | none => simp [hup] at h
      | some ch2 =>
        simp only [hup, Option.some_inj] at h
        have hch2 : wf ch2 = true := ih (getSeg_wf ht hgs) hup
        exact h ▸ wf_setSeg ht hch2

theorem wf_jsetWrite {p : JPath} {v t t1 : JVal}
    (ht : wf t = true) (hv : wf v = true) (h : jsetWrite p v t = some t1) : wf t1 = true := by
  unfold jsetWrite at h
  cases hl : p.getLast? with
  | none =>
    rw [hl] at h
    exact wf_writeKey ht hv h
  | some last =>
    rw [hl] at h
    exact wf_updateAt (fun c c2 hc hw => wf_writeKey hc hv hw) ht h

/-! ### The shape of dispatched messages -/

theorem invoke_mem {op : String} {l : Listener} {cv o1 o2 : Option JVal} {idx : Option Nat}
    {d : Dispatch} (hd : d ∈ invoke op l cv o1 o2 idx) :
    d = ⟨l.cb, l.ctx, ⟨op, cv, idx⟩⟩ := by
  simp only [invoke] at hd
  split at hd
  · cases hd
  · split at hd
    · simpa using hd
    · split at hd
      · simpa using hd
      · cases hd

theorem invoke_sub {op : String} {l : Listener} {cv o1 o2 : Option JVal} {idx : Option Nat} :
    invoke op l cv o1 o2 idx = [] ∨
      invoke op l cv o1 o2 idx = [⟨l.cb, l.ctx, ⟨op, cv, idx⟩⟩] := by
  simp only [invoke]
  split
  · exact Or.inl rfl
  · split
    · exact Or.inr rfl
    · split
      · exact Or.inr rfl
      · exact Or.inl rfl

theorem lookupGen_mem {gs : List (JPath × List Listener)} {gb : JPath} {l : Listener}
    (h : l ∈ lookupGen gs gb) : ∃ e ∈ gs, l ∈ e.2 := by
  unfold lookupGen at h
  cases hf : gs.find? (fun e => e.1 == gb) with
  | none => rw [hf] at h; cases h
  | some e =>
    rw [hf] at h
    exact ⟨e, List.mem_of_find?_eq_some hf, h⟩

theorem part2Go_cb {op : String} {rev : Bool} {o c : JVal}
    {lst : List (JPath × List Listener)} {d : Dispatch}
    (hd : d ∈ (part2Go op rev o c lst).1) : ∃ e ∈ lst, ∃ l ∈ e.2, d.cb = l.cb := by
  induction lst with
  | nil => cases hd
  | cons e rest ih =>
    obtain ⟨g, ls⟩ := e
    simp only [part2Go] at hd
    cases h1 : lengthRead (jget o g) with
    | none => rw [h1] at hd; cases hd
    | some oldLen =>
      cases h2 : lengthRead (jget c g) with
      | none => rw [h1, h2] at hd; cases hd
      | some curLen =>
        rw [h1, h2] at hd
        simp only [List.mem_append] at hd
        rcases hd with hd | hd
        · rw [List.mem_flatMap] at hd
          obtain ⟨i, _, hd⟩ := hd
          rw [List.mem_flatMap] at hd
          obtain ⟨l, hl, hd⟩ := hd
          exact ⟨(g, ls), by simp, l, hl, by rw [invoke_mem hd]⟩
        · obtain ⟨e2, he2, hrest⟩ := ih hd
          exact ⟨e2, List.mem_cons_of_mem _ he2, hrest⟩

theorem part2Go_op {op : String} {rev : Bool} {o c : JVal}
    {lst : List (JPath × List Listener)} {d : Dispatch}
    (hd : d ∈ (part2Go op rev o c lst).1) : d.msg.operation = op := by
  induction lst with
  | nil => cases hd
  | cons e rest ih =>
    obtain ⟨g, ls⟩ := e
    simp only [part2Go] at hd
    cases h1 : lengthRead (jget o g) with
    | none => rw [h1] at hd; cases hd
    | some oldLen =>
      cases h2 : lengthRead (jget c g) with
      | none => rw [h1, h2] at hd; cases hd
      | some curLen =>
        rw [h1, h2] at hd
        simp only [List.mem_append] at hd
        rcases hd with hd | hd
        · rw [List.mem_flatMap] at hd
          obtain ⟨i, _, hd⟩ := hd
          rw [List.mem_flatMap] at hd
          obtain ⟨l, hl, hd⟩ := hd
          rw [invoke_mem hd]
        · exact ih hd

/-- Every message carries the operation name that the mutating method passed
to the notifier. -/
theorem notify_op {op : String} {key : JPath} {rev : Bool} {o t : JVal} {reg : Registry}
    {d : Dispatch} (hd : d ∈ (notify op key rev o t reg).1) : d.msg.operation = op := by
  simp only [notify, List.mem_append] at hd
  rcases hd with (hd | hd) | hd
  · rw [List.mem_flatMap] at hd
    obtain ⟨e, _, hd⟩ := hd
    rw [List.mem_flatMap] at hd
    obtain ⟨l, _, hd⟩ := hd
    rw [invoke_mem hd]
  · rw [List.mem_flatMap] at hd
    obtain ⟨e, _, hd⟩ := hd
    rw [List.mem_flatMap] at hd
    obtain ⟨l, _, hd⟩ := hd
    rw [invoke_mem hd]
  · exact part2Go_op hd

/-- Callback identities dispatched by a notify pass all come from the
registry. -/
theorem notify_cb {op : String} {key : JPath} {rev : Bool} {o t : JVal} {reg : Registry}
    {d : Dispatch} (hd : d ∈ (notify op key rev o t reg).1) :
    (∃ e ∈ reg.specific, ∃ l ∈ e.2, d.cb = l.cb) ∨
      (∃ e ∈ reg.generic, ∃ l ∈ e.2, d.cb = l.cb) := by
  simp only [notify, List.mem_append] at hd
  rcases hd with (hd | hd) | hd
  · rw [List.mem_flatMap] at hd
    obtain ⟨e, he, hd⟩ := hd
    rw [List.mem_flatMap] at hd
    obtain ⟨l, hl, hd⟩ := hd
    exact Or.inl ⟨e, he, l, hl, by rw [invoke_mem hd]⟩
  · rw [List.mem_flatMap] at hd
    obtain ⟨e, _, hd⟩ := hd
    rw [List.mem_flatMap] at hd
    obtain ⟨l, hl, hd⟩ := hd
    obtain ⟨e2, he2, hl2⟩ := lookupGen_mem hl
    exact Or.inr ⟨e2, he2, l, hl2, by rw [invoke_mem hd]⟩
  · obtain ⟨e, he, l, hl, hcb⟩ := part2Go_cb hd
    exact Or.inr ⟨e, List.mem_of_mem_filter he, l, hl, hcb⟩

/-! ### Claim C8: read-after-write round trip -/

/-- C8, counterexample to the claim as stated: on the acyclic, copy-safe
target `{a: 1}`, `set('a.b', 2)` succeeds — the write resolves the container
`1`, a primitive, so the sloppy-mode assignment is silently discarded and no
error surfaces — yet `get('a.b')` afterwards is `undefined`, which is not
deep-equal to `2`. -/
theorem C8_cex :
    (jsetWrite [Seg.prop "a", Seg.prop "b"] (JVal.num 2)
        (JVal.obj [("a", JVal.num 1)])).isSome = true ∧
    (setOp [Seg.prop "a", Seg.prop "b"] (JVal.num 2) (JVal.obj [("a", JVal.num 1)])
        ⟨[], []⟩).err = false ∧
    isEqualOpt
      (jget (setOp [Seg.prop "a", Seg.prop "b"] (JVal.num 2) (JVal.obj [("a", JVal.num 1)])
        ⟨[], []⟩).target [Seg.prop "a", Seg.prop "b"])
      (some (JVal.num 2)) = false := by
  decide

/-- C8 (amended): for every acyclic, copy-safe target, every nonempty path
`p` whose parent path resolves to an object or array container — so the write
actually lands — and every copy-safe value `v`, `get(p)` after a succeeding
`set(p, v)` returns a value deep-equal to `v`. -/
theorem C8_set_get_roundtrip (p : JPath) (last : Seg) (v t c : JVal) (reg : Registry)
    (hlast : p.getLast? = some last) (hps : jget t p.dropLast = some c)
    (hcomp : isComposite c = true) (hv : wf v = true)
    (hw : (jsetWrite p v t).isSome = true) :
    isEqualOpt (jget (setOp p v t reg).target p) (some v) = true := by
  cases hwr : jsetWrite p v t with
  | none => rw [hwr] at hw; cases hw
  | some t1 =>
    have hread : jget t1 p = some v := jsetWrite_read hlast hps hcomp hwr
    simp only [setOp, hwr]
    simp [hread, isEqualOpt, isEqual_refl v hv]

/-- C8 witness: the amended round trip evaluated at `{a: 1}`,
`set('a', {x: [5]})`. -/
theorem C8_witness :
    ([Seg.prop "a"] : JPath).getLast? = some (Seg.prop "a") ∧
    jget (JVal.obj [("a", JVal.num 1)]) ([Seg.prop "a"] : JPath).dropLast =
      some (JVal.obj [("a", JVal.num 1)]) ∧
    isComposite (JVal.obj [("a", JVal.num 1)]) = true ∧
    wf (JVal.obj [("x", JVal.arr [JVal.num 5])]) = true ∧
    isEqualOpt
      (jget (setOp [Seg.prop "a"] (JVal.obj [("x", JVal.arr [JVal.num 5])])
        (JVal.obj [("a", JVal.num 1)]) ⟨[], []⟩).target [Seg.prop "a"])
      (some (JVal.obj [("x", JVal.arr [JVal.num 5])])) = true :=
  ⟨by decide, rfl, by decide, by decide,
    C8_set_get_roundtrip [Seg.prop "a"] (Seg.prop "a")
      (JVal.obj [("x", JVal.arr [JVal.num 5])]) (JVal.obj [("a", JVal.num 1)])
      (JVal.obj [("a", JVal.num 1)]) ⟨[], []⟩
      (by decide) rfl (by decide) (by decide) (by decide)⟩

/-! ### Claim C1: a second identical `set` is silent -/

/-- C1, counterexample to the claim as stated: on `{a: 1}` with an observer
registered on `a`, calling `set('a', 1)` twice in a row notifies the observer
zero times in total, not exactly once — the first call's old and new
snapshots are already deep-equal. -/
theorem C1_cex :
    ¬ (((setOp [Seg.prop "a"] (JVal.num 1) (JVal.obj [("a", JVal.num 1)])
          ⟨[([Seg.prop "a"], [⟨1, 0, []⟩])], []⟩).ds).length +
       ((setOp [Seg.prop "a"] (JVal.num 1)
          (setOp [Seg.prop "a"] (JVal.num 1) (JVal.obj [("a", JVal.num 1)])
            ⟨[([Seg.prop "a"], [⟨1, 0, []⟩])], []⟩).target
          ⟨[([Seg.prop "a"], [⟨1, 0, []⟩])], []⟩).ds).length = 1) := by
  decide

/-- C1 (amended): `set(p, v)` twice in a row on an acyclic, copy-safe target
notifies observers on `p` at most once in total: the second call dispatches
nothing at all (its old and new snapshots are deep-equal everywhere), and the
first call dispatches exactly one message to the observer on `p` precisely
when the prior value at `p` is not deep-equal to `v` (and the write lands in
an object/array container). -/
theorem C1_set_twice (p : JPath) (last : Seg) (v t t1 c : JVal) (reg : Registry)
    (L : Listener) (gens : List (JPath × List Listener))
    (hwf : wf t = true) (hv : wf v = true)
    (hw : jsetWrite p v t = some t1)
    (hlast : p.getLast? = some last) (hps : jget t p.dropLast = some c)
    (hcomp : isComposite c = true)
    (hdiff : isEqualOpt (some v) (jget t p) = false)
    (hL : L.operations = [])
    (hgen : ∀ e ∈ gens, ∀ l ∈ e.2, l.cb ≠ L.cb) :
    (setOp p v t1 reg).ds = [] ∧
    (((setOp p v t ⟨[(p, [L])], gens⟩).ds).filter (fun d => d.cb == L.cb)).length = 1 := by
  constructor
  · have hidem : jsetWrite p v t1 = some t1 := jsetWrite_idem hw
    have hwf1 : wf t1 = true := wf_jsetWrite hwf hv hw
    simp only [setOp, hidem]
    exact notify_eq_fst_nil "set" p false t1 reg hwf1
  · have hread : jget t1 p = some v := jsetWrite_read hlast hps hcomp hw
    simp only [setOp, hw]
    simp only [notify, deepClone]
    rw [List.filter_append, List.filter_append]
    have hsp : (([(p, [L])] : List (JPath × List Listener)).flatMap (fun e =>
        e.2.flatMap (fun l => invoke "set" l (jget t1 e.1) (jget t e.1) (jget t1 e.1) none))).filter
          (fun d => d.cb == L.cb) = [⟨L.cb, L.ctx, ⟨"set", some v, none⟩⟩] := by
      simp only [List.flatMap_cons, List.flatMap_nil, List.append_nil]
      rw [hread]
      simp only [invoke, hdiff, Bool.false_eq_true, if_false, hL]
      simp
    rw [hsp]
    have hp1 : ((permutateKey p).flatMap (fun e =>
        (lookupGen gens e.2.1).flatMap (fun l =>
          invoke "set" l (jget t1 e.1) (jget t e.1) (jget t1 e.1) (some e.2.2)))).filter
          (fun d => d.cb == L.cb) = [] := by
      rw [List.filter_eq_nil_iff]
      intro d hd
      rw [List.mem_flatMap] at hd
      obtain ⟨e, _, hd⟩ := hd
      rw [List.mem_flatMap] at hd
      obtain ⟨l, hl, hd⟩ := hd
      obtain ⟨e2, he2, hl2⟩ := lookupGen_mem hl
      rw [invoke_mem hd]
      simpa using hgen e2 he2 l hl2
    rw [hp1]
    have hp2 : ((part2Go "set" false t t1
        (gens.filter (fun e => matchesAffected p e.1))).1).filter (fun d => d.cb == L.cb) = [] := by
      rw [List.filter_eq_nil_iff]
      intro d hd
      obtain ⟨e, he, l, hl, hcb⟩ := part2Go_cb hd
      rw [hcb]
      simpa using hgen e (List.mem_of_mem_filter he) l hl
    rw [hp2]
    simp

/-- C1 witness: the amended statement evaluated at `{a: 1}`, `set('a', 2)`
twice, with one filterless observer on `a`. -/
theorem C1_witness :
    jsetWrite [Seg.prop "a"] (JVal.num 2) (JVal.obj [("a", JVal.num 1)]) =
      some (JVal.obj [("a", JVal.num 2)]) ∧
    (setOp [Seg.prop "a"] (JVal.num 2) (JVal.obj [("a", JVal.num 2)])
      ⟨[([Seg.prop "a"], [⟨1, 0, []⟩])], []⟩).ds = [] ∧
    (((setOp [Seg.prop "a"] (JVal.num 2) (JVal.obj [("a", JVal.num 1)])
      ⟨[([Seg.prop "a"], [⟨1, 0, []⟩])], []⟩).ds).filter
        (fun d => d.cb == (1 : Nat))).length = 1 := by
  refine ⟨rfl, ?_⟩
  have h := C1_set_twice [Seg.prop "a"] (Seg.prop "a") (JVal.num 2)
    (JVal.obj [("a", JVal.num 1)]) (JVal.obj [("a", JVal.num 2)])
    (JVal.obj [("a", JVal.num 1)]) ⟨[([Seg.prop "a"], [⟨1, 0, []⟩])], []⟩
    ⟨1, 0, []⟩ []
    (by decide) (by decide) rfl (by decide) rfl (by decide)
    (by decide) (by decide) (by simp)
  exact h

/-! ### Claim C7: `swap(p, p)` and notification -/

theorem writeKeyOpt_some (c : JVal) (s : Seg) (v : JVal) :
    writeKeyOpt c s (some v) = writeKey c s v := by
  cases c <;> cases s <;> rfl

theorem isPrefixOf_false_longer {l1 l2 : JPath} (h : l2.length < l1.length) :
    l1.isPrefixOf l2 = false := by
  induction l1 generalizing l2 with
  | nil => simp at h
  | cons a as ih =>
    cases l2 with
    | nil => rfl
    | cons b bs =>
      simp only [List.isPrefixOf_cons₂]
      have : as.isPrefixOf bs = false := ih (by simpa using Nat.lt_of_succ_lt_succ h)
      simp [this]

/-- C7, counterexample to the claim as stated: on `{arr: [1]}` with an
observer on `arr`, `swap('arr[5]', 'arr[5]')` reads `undefined`, assigns it
back into index 5 — which grows the array to length 6 — and the notify pass
then sees `arr` changed and invokes the observer. -/
theorem C7_cex :
    ¬ ((swapOp [Seg.prop "arr", Seg.idx 5] [Seg.prop "arr", Seg.idx 5]
        (JVal.obj [("arr", JVal.arr [JVal.num 1])])
        ⟨[([Seg.prop "arr"], [⟨1, 0, []⟩])], []⟩).ds = []) :=
  fun h => absurd (congrArg List.length h) (by decide)

/-- C7 (amended): for every nonempty path `p` that resolves to a present
value on a well-formed target, `swap(p, p)` invokes no observer callback,
for every registry state — the value read is written back unchanged, the
snapshots stay deep-equal, and only the second notify call is skipped. -/
theorem C7_swap_self_silent (p : JPath) (t : JVal) (reg : Registry)
    (hwf : wf t = true) (hne : p ≠ [])
    (hres : (jget t p).isSome = true) :
    (swapOp p p t reg).ds = [] := by
  obtain ⟨w, hw⟩ := Option.isSome_iff_exists.mp hres
  cases hlast : p.getLast? with
  | none => exact absurd (List.getLast?_eq_none_iff.mp hlast) hne
  | some last =>
    have hpsplit : p.dropLast ++ [last] = p := List.dropLast_append_getLast? last hlast
    have hlastSeg : lastSeg p = last := by simp [lastSeg, hlast]
    obtain ⟨c, hps, hgs⟩ : ∃ c, jget t p.dropLast = some c ∧ getSeg c last = some w := by
      rw [← hpsplit, jget_append] at hw
      cases hj : jget t p.dropLast with
      | none => rw [hj] at hw; cases hw
      | some c0 =>
        rw [hj] at hw
        rw [Option.some_bind] at hw
        simp only [jget] at hw
        cases hg0 : getSeg c0 last with
        | none => simp [hg0] at hw
        | some w0 =>
          simp only [hg0] at hw
          exact ⟨c0, rfl, by rw [hg0]; exact hw⟩
    have hf : (fun c0 => writeKeyOpt c0 (lastSeg p) (jget t p)) c = some c := by
      simp only [hlastSeg, hw]
      rw [writeKeyOpt_some]
      exact writeKey_same hgs
    have h1 : swapFirst p p t = some t := by
      unfold swapFirst
      exact updateAt_same hps hf
    have h2 : swapSecond p p t t = some t := by
      unfold swapSecond
      have hnpre : p.isPrefixOf p.dropLast = false := by
        apply isPrefixOf_false_longer
        conv_rhs => rw [← hpsplit]
        simp
      rw [hnpre]
      simp only [Bool.false_eq_true, if_false]
      exact updateAt_same hps hf
    have hnil : (notify "swap" p false (deepClone t) t reg).1 = [] :=
      notify_eq_fst_nil "swap" p false t reg hwf
    simp only [swapOp, h1, h2]
    split
    · simpa using hnil
    · simp [hnil]

/-- C7 witness: the amended statement evaluated at `{a: 1, b: [2]}`,
`swap('a', 'a')`, with observers on both keys. -/
theorem C7_witness :
    wf (JVal.obj [("a", JVal.num 1), ("b", JVal.arr [JVal.num 2])]) = true ∧
    ([Seg.prop "a"] : JPath) ≠ [] ∧
    (jget (JVal.obj [("a", JVal.num 1), ("b", JVal.arr [JVal.num 2])])
      [Seg.prop "a"]).isSome = true ∧
    (swapOp [Seg.prop "a"] [Seg.prop "a"]
      (JVal.obj [("a", JVal.num 1), ("b", JVal.arr [JVal.num 2])])
      ⟨[([Seg.prop "a"], [⟨1, 0, []⟩]), ([Seg.prop "b"], [⟨2, 0, []⟩])],
        [([Seg.prop "b"], [⟨3, 0, []⟩])]⟩).ds = [] :=
  ⟨by decide, by decide, by decide,
    C7_swap_self_silent [Seg.prop "a"]
      (JVal.obj [("a", JVal.num 1), ("b", JVal.arr [JVal.num 2])])
      ⟨[([Seg.prop "a"], [⟨1, 0, []⟩]), ([Seg.prop "b"], [⟨2, 0, []⟩])],
        [([Seg.prop "b"], [⟨3, 0, []⟩])]⟩
      (by decide) (by decide) (by decide)⟩

/-! ### Claim C4: `swap` and per-observer message count -/

/-- C4, counterexample to the claim as stated: on `{a: 1, b: 2}` with a
specific observer on `a`, `swap('a', 'b')` delivers two messages to that
observer — one from each of the two internal notify passes, both of which
rescan the whole specific registry against the same snapshots — not one. -/
theorem C4_cex :
    ¬ ((((swapOp [Seg.prop "a"] [Seg.prop "b"]
          (JVal.obj [("a", JVal.num 1), ("b", JVal.num 2)])
          ⟨[([Seg.prop "a"], [⟨1, 0, []⟩])], []⟩).ds).filter
            (fun d => d.cb == (1 : Nat))).length = 1) := by
  decide

/-- C4 (amended): `swap(pathA, pathB)` with distinct paths calls the
notifier once per distinct path, but each pass rescans the whole specific
registry against the same before/after snapshots, so a specific observer on
`pathA` — and likewise one on `pathB` — whose value changed receives one
message from **each** pass: two messages for the whole call, not one. -/
theorem C4_swap_two_messages (loc1 loc2 : JPath) (t t1 t2 : JVal) (L : Listener)
    (hne : loc1 ≠ loc2) (hL : L.operations = [])
    (hw1 : swapFirst loc1 loc2 t = some t1)
    (hw2 : swapSecond loc1 loc2 t t1 = some t2)
    (hdiff1 : isEqualOpt (jget t2 loc1) (jget t loc1) = false)
    (hdiff2 : isEqualOpt (jget t2 loc2) (jget t loc2) = false) :
    (((swapOp loc1 loc2 t ⟨[(loc1, [L])], []⟩).ds).filter
      (fun d => d.cb == L.cb)).length = 2 ∧
    (((swapOp loc1 loc2 t ⟨[(loc2, [L])], []⟩).ds).filter
      (fun d => d.cb == L.cb)).length = 2 := by
  have hgen : ∀ loc : JPath, isEqualOpt (jget t2 loc) (jget t loc) = false →
      (((swapOp loc1 loc2 t ⟨[(loc, [L])], []⟩).ds).filter
        (fun d => d.cb == L.cb)).length = 2 := by
    intro loc hdiff
    have hinv : invoke "swap" L (jget t2 loc) (jget t loc) (jget t2 loc) none
        = [⟨L.cb, L.ctx, ⟨"swap", jget t2 loc, none⟩⟩] := by
      simp [invoke, hdiff, hL]
    have hp1 : ∀ key : JPath, (permutateKey key).flatMap
        (fun e => (lookupGen ([] : List (JPath × List Listener)) e.2.1).flatMap
          (fun l => invoke "swap" l (jget t2 e.1) (jget t e.1) (jget t2 e.1) (some e.2.2))) = [] :=
      fun key => List.flatMap_eq_nil_iff.mpr (fun e _ => by simp [lookupGen])
    have hn : ∀ key : JPath, notify "swap" key false t t2 ⟨[(loc, [L])], []⟩
        = ([⟨L.cb, L.ctx, ⟨"swap", jget t2 loc, none⟩⟩], false) := by
      intro key
      simp only [notify, deepClone, List.flatMap_cons, List.flatMap_nil, List.append_nil,
        hinv, hp1 key, List.filter_nil, part2Go]
    simp only [swapOp, hw1, hw2, deepClone, hn loc1, hn loc2]
    simp [hne, hL]
  exact ⟨hgen loc1 hdiff1, hgen loc2 hdiff2⟩

/-- C4 witness: the amended statement evaluated at `{a: 1, b: 2}`,
`swap('a', 'b')`, once with the observer on `a` and once with it on `b`. -/
theorem C4_witness :
    ([Seg.prop "a"] : JPath) ≠ [Seg.prop "b"] ∧
    swapFirst [Seg.prop "a"] [Seg.prop "b"] (JVal.obj [("a", JVal.num 1), ("b", JVal.num 2)])
      = some (JVal.obj [("a", JVal.num 2), ("b", JVal.num 2)]) ∧
    swapSecond [Seg.prop "a"] [Seg.prop "b"] (JVal.obj [("a", JVal.num 1), ("b", JVal.num 2)])
      (JVal.obj [("a", JVal.num 2), ("b", JVal.num 2)])
      = some (JVal.obj [("a", JVal.num 2), ("b", JVal.num 1)]) ∧
    ((((swapOp [Seg.prop "a"] [Seg.prop "b"]
        (JVal.obj [("a", JVal.num 1), ("b", JVal.num 2)])
        ⟨[([Seg.prop "a"], [⟨1, 0, []⟩])], []⟩).ds).filter
          (fun d => d.cb == (1 : Nat))).length = 2 ∧
      (((swapOp [Seg.prop "a"] [Seg.prop "b"]
        (JVal.obj [("a", JVal.num 1), ("b", JVal.num 2)])
        ⟨[([Seg.prop "b"], [⟨1, 0, []⟩])], []⟩).ds).filter
          (fun d => d.cb == (1 : Nat))).length = 2) :=
  ⟨by decide, rfl, rfl,
    C4_swap_two_messages [Seg.prop "a"] [Seg.prop "b"]
      (JVal.obj [("a", JVal.num 1), ("b", JVal.num 2)])
      (JVal.obj [("a", JVal.num 2), ("b", JVal.num 2)])
      (JVal.obj [("a", JVal.num 2), ("b", JVal.num 1)])
      ⟨1, 0, []⟩ (by decide) (by decide) rfl rfl (by decide) (by decide)⟩

/-! ### Claim C5: operation names in messages -/

/-- C5, counterexample to the claim as stated: on `{arr: [2, 1]}` with an
observer on `arr`, `sortBy('arr', identity)` dispatches a message whose
`operation` is `"filter"`, not `"sortBy"` — the source passes the literal
`"filter"` to the notifier (and the repository's own sortBy spec expects
exactly that). -/
theorem C5_cex :
    ¬ (∀ d ∈ (sortByOp [Seg.prop "arr"] (fun v => match v with | .num n => n | _ => 0)
        (JVal.obj [("arr", JVal.arr [JVal.num 2, JVal.num 1])])
        ⟨[([Seg.prop "arr"], [⟨1, 0, []⟩])], []⟩).ds,
      d.msg.operation = "sortBy") := by
  decide

/-- C5 (amended): every mutation method passes a fixed operation name to the
notifier and every message of that call carries it — `set` passes `"set"`,
`push` passes `"push"`, `filter` passes `"filter"` — except that `sortBy`
passes `"filter"`, not its own name, so every message dispatched during
`sortBy(path, keyFn)` has operation `"filter"`. -/
theorem C5_operation_names (key : JPath) (keyFn : JVal → Int) (pred : JVal → Nat → Bool)
    (v t : JVal) (reg : Registry) :
    (∀ d ∈ (sortByOp key keyFn t reg).ds, d.msg.operation = "filter") ∧
    (∀ d ∈ (filterOp key pred t reg).ds, d.msg.operation = "filter") ∧
    (∀ d ∈ (setOp key v t reg).ds, d.msg.operation = "set") ∧
    (∀ d ∈ (pushOp key v t reg).ds, d.msg.operation = "push") := by
  refine ⟨?_, ?_, ?_, ?_⟩
  · intro d hd
    unfold sortByOp at hd
    cases hj : jget t key with
    | none => simp [hj] at hd
    | some w =>
      cases w with
      | arr xs =>
        simp only [hj] at hd
        by_cases hk : key = []
        · simp only [hk, if_pos] at hd
          exact notify_op hd
        · simp only [if_neg hk] at hd
          cases hw : jsetWrite key (.arr ((sortPairs keyFn xs).map Prod.fst)) t with
          | none => simp [hw] at hd
          | some t1 =>
            simp only [hw] at hd
            exact notify_op hd
      | null => simp [hj] at hd
      | bool b => simp [hj] at hd
      | num a => simp [hj] at hd
      | str s => simp [hj] at hd
      | obj fs => simp [hj] at hd
  · intro d hd
    unfold filterOp at hd
    cases hw : updateAt key (fun c => match c with
        | .arr xs => some (.arr ((withIdx xs).filterMap
            (fun p => if pred p.1 p.2 then some p.1 else none)))
        | _ => none) t with
    | none => simp [hw] at hd
    | some t1 =>
      simp only [hw] at hd
      exact notify_op hd
  · intro d hd
    unfold setOp at hd
    cases hw : jsetWrite key v t with
    | none => simp [hw] at hd
    | some t1 =>
      simp only [hw] at hd
      exact notify_op hd
  · intro d hd
    unfold pushOp at hd
    cases hw : updateAt key (fun c => match c with
        | .arr xs => some (.arr (xs ++ [v]))
        | _ => none) t with
    | none => simp [hw] at hd
    | some t1 =>
      simp only [hw] at hd
      exact notify_op hd

/-! ### Claim C6: `removeObserver` with an operations filter -/

/-- C6, counterexample to the claim as stated: removing `'a:set'` with
context `1` from two observers on `a` — one with context `1`, one with
context `2` — subtracts `set` from **both**: the different-context observer
does not keep its operations set unchanged. -/
theorem C6_cex :
    removeObsList ["set"] (some 1)
        [⟨1, 1, ["set", "push"]⟩, ⟨2, 2, ["set", "push"]⟩] =
      [⟨1, 1, ["push"]⟩, ⟨2, 2, ["push"]⟩] ∧
    ¬ (removeObsList ["set"] (some 1)
        [⟨1, 1, ["set", "push"]⟩, ⟨2, 2, ["set", "push"]⟩] =
      [⟨1, 1, ["push"]⟩, ⟨2, 2, ["set", "push"]⟩]) := by
  decide

/-- C6 (amended): when `removeObserver` is called with an operations filter
and a context, the named operations are subtracted from **every** observer on
the key regardless of context; the context governs removal only.  An
observer with a different context stays registered — with the named
operations subtracted as well — and a matching-context observer stays
registered exactly when other operations remain, keeping those. -/
theorem C6_remove_ops (key : JPath) (ops : List String) (c0 : Nat) (l1 l2 : Listener)
    (hops : ops ≠ []) (hl1 : l1.ctx = c0) (hl2 : l2.ctx ≠ c0) :
    removeObsKey key ops (some c0) [(key, [l1, l2])] =
      if (difference l1.operations ops).isEmpty then
        [(key, [{ l2 with operations := difference l2.operations ops }])]
      else
        [(key, [{ l1 with operations := difference l1.operations ops },
                { l2 with operations := difference l2.operations ops }])] := by
  have hoe : ops.isEmpty = false := by
    cases ops with
    | nil => exact absurd rfl hops
    | cons a rest => rfl
  have hctx2 : (some c0 = some l2.ctx) = False := by
    simp [Ne.symm hl2]
  simp only [removeObsKey, removeObsList, hoe, Bool.not_false, Bool.false_eq_true,
    if_false, if_true, Option.isSome_some, Bool.true_and, Bool.and_true, List.map_cons,
    List.map_nil, List.filter_cons, List.filter_nil, hl1, hctx2]
  by_cases he : (difference l1.operations ops).isEmpty = true
  · simp [he, hl1, hctx2, Ne.symm hl2]
  · simp only [Bool.not_eq_true] at he
    simp [he, hl1, hctx2, Ne.symm hl2]

/-- C6 witness: the amended statement evaluated at the counterexample's
registry. -/
theorem C6_witness :
    (["set"] : List String) ≠ [] ∧
    (⟨1, 1, ["set", "push"]⟩ : Listener).ctx = 1 ∧
    (⟨2, 2, ["set", "push"]⟩ : Listener).ctx ≠ 1 ∧
    removeObsKey [Seg.prop "a"] ["set"] (some 1)
        [([Seg.prop "a"], [⟨1, 1, ["set", "push"]⟩, ⟨2, 2, ["set", "push"]⟩])] =
      if (difference ["set", "push"] ["set"]).isEmpty then
        [([Seg.prop "a"], [⟨2, 2, difference ["set", "push"] ["set"]⟩])]
      else
        [([Seg.prop "a"], [⟨1, 1, difference ["set", "push"] ["set"]⟩,
                           ⟨2, 2, difference ["set", "push"] ["set"]⟩])] :=
  ⟨by decide, by decide, by decide,
    C6_remove_ops [Seg.prop "a"] ["set"] 1
      ⟨1, 1, ["set", "push"]⟩ ⟨2, 2, ["set", "push"]⟩
      (by decide) (by decide) (by decide)⟩

/-! ### Claim C10: notifier `TypeError` on an absent generic base -/

theorem isPrefixOf_self (l : JPath) : l.isPrefixOf l = true := by
  induction l with
  | nil => rfl
  | cons a as ih => simp [List.isPrefixOf_cons₂, ih]

/-- A mutated key with fewer than two bracket groups — whose line-238 matcher
is a well-formed literal prefix pattern — is an affected parent of its own
generic registry key. -/
theorem matchesAffected_self (p : JPath) (h : bracketCount p < 2) :
    matchesAffected p p = true := by
  simp only [matchesAffected, if_neg (Nat.not_le.mpr h)]
  exact isPrefixOf_self p

/-- A mutated key with two or more bracket groups — whose line-238 matcher is
malformed — matches no generic registry key at all. -/
theorem matchesAffected_multi (p g : JPath) (h : 2 ≤ bracketCount p) :
    matchesAffected p g = false := by
  simp only [matchesAffected, if_pos h]

theorem find_filter_out (fs : List (String × JVal)) (s : String) :
    (fs.filter (fun kv => !(kv.1 == s))).find? (fun kv => kv.1 == s) = none := by
  rw [List.find?_eq_none]
  intro kv hkv
  have := List.of_mem_filter hkv
  simp at this
  simp [this]

/-- C10, counterexample to the claim as stated: with a generic observer on
`arr[]` and `{arr: 5}` — the value at `arr` present but **not an array** —
`set('arr', [1, 2])` does not throw: `(5).length` is `undefined`, `maxRange`
falls back to the new array's length, and two per-index messages are
delivered.  Only an absent (`undefined`/`null`) base throws. -/
theorem C10_cex :
    (setOp [Seg.prop "arr"] (JVal.arr [JVal.num 1, JVal.num 2])
      (JVal.obj [("arr", JVal.num 5)])
      ⟨[], [([Seg.prop "arr"], [⟨1, 0, []⟩])]⟩).err = false ∧
    ((setOp [Seg.prop "arr"] (JVal.arr [JVal.num 1, JVal.num 2])
      (JVal.obj [("arr", JVal.num 5)])
      ⟨[], [([Seg.prop "arr"], [⟨1, 0, []⟩])]⟩).ds).length = 2 := by
  decide

/-- C10 (amended): with a generic observer registered on `p[]`, for `p` with
fewer than two bracket groups (so that the line-238 key matcher still finds
the generic key), a mutating call whose pre- or post-mutation snapshot has
**no value** (`undefined`) at `p` throws a `TypeError` inside the notifier
reading the absent array's length, after the target has already been
mutated: `set(p, someArray)` on a target where `p` did not exist throws with
the write applied, and `remove(p)` of the observed array throws with the
property already deleted.  A present non-array value (e.g. a number),
contrary to the claim's parenthetical, does not throw; and with two or more
bracket groups the malformed matcher skips the generic key entirely, so no
length is read and no `TypeError` occurs. -/
theorem C10_absent_base_throws :
    (∀ (p : JPath) (v t t1 : JVal) (ls : List Listener)
        (spec : List (JPath × List Listener)),
      bracketCount p < 2 → jget t p = none → jsetWrite p v t = some t1 →
        (setOp p v t ⟨spec, [(p, ls)]⟩).err = true ∧
        (setOp p v t ⟨spec, [(p, ls)]⟩).target = t1) ∧
    (∀ (s : String) (fs : List (String × JVal)) (ys : List JVal) (ls : List Listener)
        (spec : List (JPath × List Listener)),
      jget (JVal.obj fs) [Seg.prop s] = some (.arr ys) →
        (removeOp [Seg.prop s] (JVal.obj fs) ⟨spec, [([Seg.prop s], ls)]⟩).err = true ∧
        jget (removeOp [Seg.prop s] (JVal.obj fs) ⟨spec, [([Seg.prop s], ls)]⟩).target
          [Seg.prop s] = none) := by
  constructor
  · intro p v t t1 ls spec hbc habs hw
    have haff : ([(p, ls)] : List (JPath × List Listener)).filter
        (fun e => matchesAffected p e.1) = [(p, ls)] := by
      simp [List.filter_cons, matchesAffected_self p hbc]
    constructor
    · simp only [setOp, hw, notify, deepClone, haff, part2Go, habs, lengthRead]
    · simp only [setOp, hw]
  · intro s fs ys ls spec hget
    have hwrite : updateAt ([] : JPath) (fun c =>
        match c with
        | .obj fs2 => some (.obj (fs2.filter (fun kv => !(kv.1 == s))))
        | .null => none
        | .arr _ => none
        | c2 => some c2) (JVal.obj fs) =
        some (.obj (fs.filter (fun kv => !(kv.1 == s)))) := rfl
    have hgone : jget (JVal.obj (fs.filter (fun kv => !(kv.1 == s)))) [Seg.prop s] = none := by
      simp only [jget, getSeg]
      rw [find_filter_out]
      rfl
    have hbc1 : bracketCount [Seg.prop s] < 2 := Nat.zero_lt_two
    have haff : ([([Seg.prop s], ls)] : List (JPath × List Listener)).filter
        (fun e => matchesAffected [Seg.prop s] e.1) = [([Seg.prop s], ls)] := by
      simp [List.filter_cons, matchesAffected_self [Seg.prop s] hbc1]
    have herr : (part2Go "remove" false (JVal.obj fs)
        (JVal.obj (fs.filter (fun kv => !(kv.1 == s)))) [([Seg.prop s], ls)]).2 = true := by
      simp only [part2Go, hget, hgone, lengthRead]
    constructor
    · simp only [removeOp, deepClone, notify, hwrite, List.dropLast_single]
      rw [show (if 1 < (groupSegs [Seg.prop s]).length then ([] : JPath) else [Seg.prop s])
        = [Seg.prop s] from rfl, haff]
      exact herr
    · simp [removeOp, deepClone, hwrite]
      exact hgone

/-- C10 witness: both amended branches evaluated — `set('arr', [1])` on `{}`
and `remove('arr')` on `{arr: [1, 2]}`, each with a generic observer on
`arr[]`. -/
theorem C10_witness :
    bracketCount [Seg.prop "arr"] < 2 ∧
    jget (JVal.obj []) [Seg.prop "arr"] = none ∧
    jsetWrite [Seg.prop "arr"] (JVal.arr [JVal.num 1]) (JVal.obj []) =
      some (JVal.obj [("arr", JVal.arr [JVal.num 1])]) ∧
    jget (JVal.obj [("arr", JVal.arr [JVal.num 1, JVal.num 2])]) [Seg.prop "arr"] =
      some (.arr [JVal.num 1, JVal.num 2]) ∧
    ((setOp [Seg.prop "arr"] (JVal.arr [JVal.num 1]) (JVal.obj [])
        ⟨[], [([Seg.prop "arr"], [⟨1, 0, []⟩])]⟩).err = true ∧
      (setOp [Seg.prop "arr"] (JVal.arr [JVal.num 1]) (JVal.obj [])
        ⟨[], [([Seg.prop "arr"], [⟨1, 0, []⟩])]⟩).target =
          JVal.obj [("arr", JVal.arr [JVal.num 1])]) ∧
    ((removeOp [Seg.prop "arr"] (JVal.obj [("arr", JVal.arr [JVal.num 1, JVal.num 2])])
        ⟨[], [([Seg.prop "arr"], [⟨1, 0, []⟩])]⟩).err = true ∧
      jget (removeOp [Seg.prop "arr"] (JVal.obj [("arr", JVal.arr [JVal.num 1, JVal.num 2])])
        ⟨[], [([Seg.prop "arr"], [⟨1, 0, []⟩])]⟩).target [Seg.prop "arr"] = none) :=
  ⟨by decide, rfl, rfl, rfl,
    C10_absent_base_throws.1 [Seg.prop "arr"] (JVal.arr [JVal.num 1]) (JVal.obj [])
      (JVal.obj [("arr", JVal.arr [JVal.num 1])]) [⟨1, 0, []⟩] [] (by decide) rfl rfl,
    C10_absent_base_throws.2 "arr" [("arr", JVal.arr [JVal.num 1, JVal.num 2])]
      [JVal.num 1, JVal.num 2] [⟨1, 0, []⟩] [] rfl⟩

/-! ### Claim C9: `sortBy` is a stable sort -/

theorem insertByLt_perm {α : Type} (lt : α → α → Bool) (a : α) (l : List α) :
    List.Perm (insertByLt lt a l) (a :: l) := by
  induction l with
  | nil => exact List.Perm.refl _
  | cons b bs ih =>
    unfold insertByLt
    split
    · exact (ih.cons b).trans (List.Perm.swap a b bs)
    · exact List.Perm.refl _

theorem sortByKey_perm {α : Type} (keyFn : α → Int) (l : List α) :
    List.Perm (sortByKey keyFn l) l := by
  induction l with
  | nil => exact List.Perm.refl _
  | cons a rest ih =>
    unfold sortByKey
    simp only [List.foldr_cons]
    exact (insertByLt_perm _ a _).trans (List.Perm.cons a ih)

theorem insertByLt_sorted {α : Type} (keyFn : α → Int) (a : α) (l : List α)
    (h : l.Pairwise (fun x y => keyFn x ≤ keyFn y)) :
    (insertByLt (fun x y => decide (keyFn x < keyFn y)) a l).Pairwise
      (fun x y => keyFn x ≤ keyFn y) := by
  induction l with
  | nil => simp [insertByLt]
  | cons b bs ih =>
    rw [List.pairwise_cons] at h
    unfold insertByLt
    split
    · next hlt =>
      have hba : keyFn b < keyFn a := of_decide_eq_true hlt
      rw [List.pairwise_cons]
      constructor
      · intro y hy
        rcases List.mem_cons.mp ((insertByLt_perm _ a bs).mem_iff.mp hy) with heq | hy3
        · exact heq ▸ le_of_lt hba
        · exact h.1 y hy3
      · exact ih h.2
    · next hlt =>
      have hab : keyFn a ≤ keyFn b :=
        le_of_not_lt (fun hc => hlt (decide_eq_true hc))
      rw [List.pairwise_cons]
      constructor
      · intro y hy
        rcases List.mem_cons.mp hy with heq | hy2
        · exact heq ▸ hab
        · exact le_trans hab (h.1 y hy2)
      · exact List.pairwise_cons.mpr ⟨h.1, h.2⟩

theorem sortByKey_sorted {α : Type} (keyFn : α → Int) (l : List α) :
    (sortByKey keyFn l).Pairwise (fun x y => keyFn x ≤ keyFn y) := by
  induction l with
  | nil => exact List.Pairwise.nil
  | cons a rest ih =>
    unfold sortByKey
    simp only [List.foldr_cons]
    exact insertByLt_sorted keyFn a _ ih

theorem filter_insertByLt {α : Type} (keyFn : α → Int) (p : α → Bool) (a : α) (m : List α)
    (hcomp : ∀ b, keyFn b < keyFn a → p a = true → p b = false) :
    (insertByLt (fun x y => decide (keyFn x < keyFn y)) a m).filter p =
      if p a then a :: m.filter p else m.filter p := by
  induction m with
  | nil => cases hpa : p a <;> simp [insertByLt, List.filter, hpa]
  | cons b bs ih =>
    unfold insertByLt
    split
    · next hlt =>
      have hba : keyFn b < keyFn a := of_decide_eq_true hlt
      by_cases hpa : p a = true
      · have hpb : p b = false := hcomp b hba hpa
        simp [List.filter_cons, hpb, hpa, ih]
      · simp only [Bool.not_eq_true] at hpa
        simp [List.filter_cons, hpa, ih]
    · next =>
      simp [List.filter_cons]

theorem sortByKey_stable {α : Type} (keyFn : α → Int) (l : List α) (k : Int) :
    (sortByKey keyFn l).filter (fun x => keyFn x == k) =
      l.filter (fun x => keyFn x == k) := by
  induction l with
  | nil => rfl
  | cons a rest ih =>
    have hstep : sortByKey keyFn (a :: rest) =
        insertByLt (fun x y => decide (keyFn x < keyFn y)) a (sortByKey keyFn rest) := by
      unfold sortByKey
      simp [List.foldr_cons]
    have hcomp : ∀ b, keyFn b < keyFn a → ((keyFn a == k) = true) → (keyFn b == k) = false := by
      intro b hlt hak
      have hak2 : keyFn a = k := by simpa using hak
      apply beq_eq_false_iff_ne.mpr
      omega
    rw [hstep, filter_insertByLt keyFn _ a _ hcomp, ih, List.filter_cons]

theorem jget_split_last {t w : JVal} {p : JPath} {last : Seg} (hlast : p.getLast? = some last)
    (h : jget t p = some w) : ∃ c, jget t p.dropLast = some c ∧ getSeg c last = some w := by
  have hpsplit : p.dropLast ++ [last] = p := List.dropLast_append_getLast? last hlast
  rw [← hpsplit, jget_append] at h
  cases hj : jget t p.dropLast with
  | none => rw [hj] at h; cases h
  | some c0 =>
    rw [hj, Option.some_bind] at h
    simp only [jget] at h
    cases hg0 : getSeg c0 last with
    | none => simp [hg0] at h
    | some w0 =>
      simp only [hg0] at h
      exact ⟨c0, rfl, by rw [hg0]; exact h⟩

/-- C9 (confirmed): `sortBy(path, keyFn)` stably sorts the collection — the
element/original-index pairs come out sorted by key, a permutation of the
input pairs, and for every key value the pairs with that key keep their
original order — and the sorted array is both returned to the caller and
readable afterwards via `get(path)`. -/
theorem C9_sortBy_stable (key : JPath) (keyFn : JVal → Int) (t : JVal) (reg : Registry)
    (xs : List JVal) (hget : jget t key = some (.arr xs)) :
    (sortByOp key keyFn t reg).ret = some (.arr ((sortPairs keyFn xs).map Prod.fst)) ∧
    (sortPairs keyFn xs).Pairwise (fun a b => keyFn a.1 ≤ keyFn b.1) ∧
    List.Perm (sortPairs keyFn xs) (withIdx xs) ∧
    (∀ k : Int, (sortPairs keyFn xs).filter (fun q => keyFn q.1 == k) =
      (withIdx xs).filter (fun q => keyFn q.1 == k)) ∧
    jget (sortByOp key keyFn t reg).target key =
      some (.arr ((sortPairs keyFn xs).map Prod.fst)) := by
  have hwb : ∃ t1, (if key = [] then some (.arr ((sortPairs keyFn xs).map Prod.fst))
        else jsetWrite key (.arr ((sortPairs keyFn xs).map Prod.fst)) t) = some t1 ∧
      jget t1 key = some (.arr ((sortPairs keyFn xs).map Prod.fst)) := by
    by_cases hk : key = []
    · subst hk
      exact ⟨.arr ((sortPairs keyFn xs).map Prod.fst), by simp, by simp [jget]⟩
    · cases hlast : key.getLast? with
      | none => exact absurd (List.getLast?_eq_none_iff.mp hlast) hk
      | some last =>
        obtain ⟨c, hps, hgs⟩ := jget_split_last hlast hget
        have hsome := writeKey_isSome_of_getSeg (.arr ((sortPairs keyFn xs).map Prod.fst)) hgs
        cases hwk : writeKey c last (.arr ((sortPairs keyFn xs).map Prod.fst)) with
        | none => rw [hwk] at hsome; cases hsome
        | some c2 =>
          obtain ⟨t1, hup, _⟩ :=
            @updateAt_lens key.dropLast
              (fun c0 => writeKey c0 last (.arr ((sortPairs keyFn xs).map Prod.fst))) t c c2
              hps hwk
          have hw : jsetWrite key (.arr ((sortPairs keyFn xs).map Prod.fst)) t = some t1 := by
            unfold jsetWrite
            simp only [hlast]
            exact hup
          refine ⟨t1, by simp [hk, hw], ?_⟩
          exact jsetWrite_read hlast hps (getSeg_composite hgs) hw
  obtain ⟨t1, hw1, hr1⟩ := hwb
  have hout : sortByOp key keyFn t reg =
      ⟨t1, (notify "filter" key true (deepClone t) t1 reg).1,
        (notify "filter" key true (deepClone t) t1 reg).2,
        some (.arr ((sortPairs keyFn xs).map Prod.fst))⟩ := by
    unfold sortByOp
    rw [hget]
    simp only [hw1]
  rw [hout]
  exact ⟨rfl, sortByKey_sorted _ _, sortByKey_perm _ _,
    fun k => sortByKey_stable _ _ k, hr1⟩

/-- C9 witness: `{arr: [5, 3, 1]}`, `sortBy('arr', identity)` returns and
stores `[1, 3, 5]`. -/
theorem C9_witness :
    jget (JVal.obj [("arr", JVal.arr [JVal.num 5, JVal.num 3, JVal.num 1])]) [Seg.prop "arr"] =
      some (.arr [JVal.num 5, JVal.num 3, JVal.num 1]) ∧
    (sortByOp [Seg.prop "arr"] (fun v => match v with | JVal.num n => n | _ => 0)
        (JVal.obj [("arr", JVal.arr [JVal.num 5, JVal.num 3, JVal.num 1])]) ⟨[], []⟩).ret =
      some (.arr [JVal.num 1, JVal.num 3, JVal.num 5]) ∧
    jget (sortByOp [Seg.prop "arr"] (fun v => match v with | JVal.num n => n | _ => 0)
        (JVal.obj [("arr", JVal.arr [JVal.num 5, JVal.num 3, JVal.num 1])]) ⟨[], []⟩).target
      [Seg.prop "arr"] = some (.arr [JVal.num 1, JVal.num 3, JVal.num 5]) := by
  refine ⟨rfl, ?_, ?_⟩
  · have h := (C9_sortBy_stable [Seg.prop "arr"]
      (fun v => match v with | JVal.num n => n | _ => 0)
      (JVal.obj [("arr", JVal.arr [JVal.num 5, JVal.num 3, JVal.num 1])]) ⟨[], []⟩
      [JVal.num 5, JVal.num 3, JVal.num 1] rfl).1
    rw [h]
    rfl
  · have h := (C9_sortBy_stable [Seg.prop "arr"]
      (fun v => match v with | JVal.num n => n | _ => 0)
      (JVal.obj [("arr", JVal.arr [JVal.num 5, JVal.num 3, JVal.num 1])]) ⟨[], []⟩
      [JVal.num 5, JVal.num 3, JVal.num 1] rfl).2.2.2.2
    rw [h]
    rfl

/-! ### Claim C3: `push` notifies the generic observer once, at the old
length -/

theorem groupSegs_flatten (p : JPath) : (groupSegs p).flatten = p := by
  induction p with
  | nil => rfl
  | cons s rest ih =>
    unfold groupSegs
    cases hg : groupSegs rest with
    | nil =>
      have h0 : rest = [] := by
        rw [← ih, hg]
        rfl
      subst h0
      rfl
    | cons g gs =>
      rw [hg] at ih
      cases hh : g.head? with
      | none =>
        simp only [hh]
        simpa [List.flatten_cons] using congrArg (fun l => s :: l) ih
      | some seg =>
        cases seg with
        | prop s0 =>
          simp only [hh]
          simpa [List.flatten_cons] using congrArg (fun l => s :: l) ih
        | idx n =>
          simp only [hh]
          simpa [List.flatten_cons] using congrArg (fun l => s :: l) ih

theorem dotPrefixes_length {p pre : JPath} (h : pre ∈ dotPrefixes p) :
    pre.length ≤ p.length := by
  unfold dotPrefixes at h
  rw [List.mem_map] at h
  obtain ⟨i, _, hpre⟩ := h
  subst hpre
  calc ((groupSegs p).take (i + 1)).flatten.length
      ≤ ((groupSegs p).take (i + 1)).flatten.length +
        ((groupSegs p).drop (i + 1)).flatten.length := Nat.le_add_right _ _
    _ = (groupSegs p).flatten.length := by
        rw [← List.length_append, ← List.flatten_append, List.take_append_drop]
    _ = p.length := by rw [groupSegs_flatten]

theorem permutateKey_gbase_short {p : JPath} {e : JPath × JPath × Nat}
    (h : e ∈ permutateKey p) : e.2.1.length < p.length := by
  unfold permutateKey at h
  rw [List.mem_filterMap] at h
  obtain ⟨pre, hpre, hmatch⟩ := h
  cases hl : pre.getLast? with
  | none => simp [hl] at hmatch
  | some seg =>
    cases seg with
    | prop s0 => simp [hl] at hmatch
    | idx n =>
      simp only [hl] at hmatch
      obtain rfl := (Option.some_inj.mp hmatch).symm
      have hne : pre ≠ [] := by
        intro h0
        subst h0
        simp at hl
      have h1 : pre.dropLast.length < pre.length := by
        rw [List.length_dropLast]
        have h2 : 0 < pre.length := List.length_pos.mpr hne
        omega
      exact lt_of_lt_of_le h1 (dotPrefixes_length hpre)

/-- With the generic registry holding exactly the key `path[]`, the
permutation pass finds no listeners: its generic bases are strict prefixes
of `path`. -/
theorem lookupGen_single_short {path gb : JPath} {L : Listener}
    (h : gb.length < path.length) : lookupGen [(path, [L])] gb = [] := by
  unfold lookupGen
  have : (path == gb) = false := by
    apply beq_eq_false_iff_ne.mpr
    intro heq
    subst heq
    exact Nat.lt_irrefl _ h
  simp [List.find?, this]

/-- C3, counterexample to the claim as stated: `push('a[0][1]', 9)` on
`{a: [[[5], [7]]]}` with a filterless generic observer on `a[0][1][]`
appends the element and completes without error, yet delivers **zero**
messages.  The mutated key has two bracket groups, so the line-238 matcher
`^a\[0\][1]` is malformed (its trailing `[1]` is a character class) and the
per-index pass skips the generic key; the permutation pass only consults
the shorter generic key `a[0][]`, which is not registered. -/
theorem C3_cex :
    (pushOp [Seg.prop "a", Seg.idx 0, Seg.idx 1] (JVal.num 9)
      (JVal.obj [("a", JVal.arr [JVal.arr [JVal.arr [JVal.num 5], JVal.arr [JVal.num 7]]])])
      ⟨[], [([Seg.prop "a", Seg.idx 0, Seg.idx 1], [⟨1, 0, []⟩])]⟩).ds = [] ∧
    (pushOp [Seg.prop "a", Seg.idx 0, Seg.idx 1] (JVal.num 9)
      (JVal.obj [("a", JVal.arr [JVal.arr [JVal.arr [JVal.num 5], JVal.arr [JVal.num 7]]])])
      ⟨[], [([Seg.prop "a", Seg.idx 0, Seg.idx 1], [⟨1, 0, []⟩])]⟩).err = false ∧
    jget (pushOp [Seg.prop "a", Seg.idx 0, Seg.idx 1] (JVal.num 9)
      (JVal.obj [("a", JVal.arr [JVal.arr [JVal.arr [JVal.num 5], JVal.arr [JVal.num 7]]])])
      ⟨[], [([Seg.prop "a", Seg.idx 0, Seg.idx 1], [⟨1, 0, []⟩])]⟩).target
      [Seg.prop "a", Seg.idx 0, Seg.idx 1] = some (JVal.arr [JVal.num 7, JVal.num 9]) :=
  ⟨rfl, rfl, rfl⟩

/-- C3 (amended): on a target holding an array of length `n` at `path`, for
`path` with fewer than two bracket groups (so that the line-238 key matcher
still finds the generic key), with the generic registry holding exactly one
filterless observer on `path[]`, `push(path, v)` delivers exactly one
message to that observer: `{operation: "push", value: v, index: n}` — and
the call does not throw.  With two or more bracket groups the malformed
matcher suppresses the per-index pass and the observer receives nothing. -/
theorem C3_push_generic (path : JPath) (t v : JVal) (L : Listener) (xs : List JVal)
    (spec : List (JPath × List Listener))
    (hbc : bracketCount path < 2)
    (hwf : wf t = true)
    (hL : L.operations = [])
    (hget : jget t path = some (.arr xs))
    (hspec : ∀ e ∈ spec, ∀ l ∈ e.2, l.cb ≠ L.cb) :
    ((pushOp path v t ⟨spec, [(path, [L])]⟩).ds).filter (fun d => d.cb == L.cb) =
      [⟨L.cb, L.ctx, ⟨"push", some v, some xs.length⟩⟩] ∧
    (pushOp path v t ⟨spec, [(path, [L])]⟩).err = false := by
  have hwxs : wfList xs = true := by simpa [wf] using jget_wf hwf hget
  have hf : (fun c => match c with
      | JVal.arr xs2 => some (JVal.arr (xs2 ++ [v]))
      | _ => none) (JVal.arr xs) = some (JVal.arr (xs ++ [v])) := rfl
  obtain ⟨t1, hup, hread⟩ :=
    @updateAt_lens path (fun c => match c with
      | JVal.arr xs2 => some (JVal.arr (xs2 ++ [v]))
      | _ => none) t (JVal.arr xs) (JVal.arr (xs ++ [v])) hget hf
  have hlr1 : lengthRead (jget t path) = some (some xs.length) := by
    rw [hget]; rfl
  have hlr2 : lengthRead (jget t1 path) = some (some (xs.length + 1)) := by
    rw [hread]
    simp [lengthRead]
  have hd2 : ∀ i, i < xs.length →
      invoke "push" L (indexNat (jget t1 path) i) (indexNat (jget t path) i)
        (indexNat (jget t1 path) i) (some i) = [] := by
    intro i hi
    rw [hget, hread]
    apply invoke_eq_nil
    simp only [indexNat]
    rw [List.getElem?_append_left hi]
    apply isEqualOpt_refl
    cases hx : xs[i]? with
    | none => rfl
    | some el => simpa [wfOpt] using wfList_mem hwxs (List.getElem?_mem hx)
  have hdn : invoke "push" L (indexNat (jget t1 path) xs.length)
      (indexNat (jget t path) xs.length) (indexNat (jget t1 path) xs.length)
      (some xs.length) =
      [⟨L.cb, L.ctx, ⟨"push", some v, some xs.length⟩⟩] := by
    rw [hget, hread]
    simp only [indexNat]
    rw [List.getElem?_concat_length, List.getElem?_eq_none (Nat.le_refl _)]
    simp [invoke, isEqualOpt, hL]
  have hp2 : part2Go "push" false t t1 [(path, [L])] =
      ([⟨L.cb, L.ctx, ⟨"push", some v, some xs.length⟩⟩], false) := by
    simp only [part2Go, hlr1, hlr2]
    have hgt : jsGT (some xs.length) (some (xs.length + 1)) = false := by
      simp [jsGT]
    rw [hgt]
    simp only [Bool.false_eq_true, if_false, List.range_succ, List.flatMap_append,
      List.flatMap_cons, List.flatMap_nil, List.append_nil]
    rw [List.flatMap_eq_nil_iff.mpr (fun i hi => hd2 i (List.mem_range.mp hi))]
    rw [hdn]
    rfl
  have hsp : (spec.flatMap (fun e =>
      e.2.flatMap (fun l => invoke "push" l (jget t1 e.1) (jget t e.1) (jget t1 e.1)
        none))).filter (fun d => d.cb == L.cb) = [] := by
    rw [List.filter_eq_nil_iff]
    intro d hd
    rw [List.mem_flatMap] at hd
    obtain ⟨e, he, hd⟩ := hd
    rw [List.mem_flatMap] at hd
    obtain ⟨l, hl, hd⟩ := hd
    rw [invoke_mem hd]
    simpa using hspec e he l hl
  have hp1 : (permutateKey path).flatMap (fun e =>
      (lookupGen [(path, [L])] e.2.1).flatMap (fun l =>
        invoke "push" l (jget t1 e.1) (jget t e.1) (jget t1 e.1) (some e.2.2))) = [] := by
    apply List.flatMap_eq_nil_iff.mpr
    intro e he
    rw [lookupGen_single_short (permutateKey_gbase_short he)]
    rfl
  have haff : ([(path, [L])] : List (JPath × List Listener)).filter
      (fun e => matchesAffected path e.1) = [(path, [L])] := by
    simp [List.filter_cons, matchesAffected_self path hbc]
  constructor
  · simp only [pushOp, hup, notify, deepClone, haff, hp1, hp2, List.append_nil,
      List.filter_append, hsp]
    simp
  · simp only [pushOp, hup, notify, deepClone, haff, hp2]

/-- C3 witness: `{arr: [1, 2, 3]}`, observer on `arr[]`, `push('arr', 4)` ⇒
exactly one message `{operation: "push", value: 4, index: 3}`. -/
theorem C3_witness :
    bracketCount [Seg.prop "arr"] < 2 ∧
    wf (JVal.obj [("arr", JVal.arr [JVal.num 1, JVal.num 2, JVal.num 3])]) = true ∧
    jget (JVal.obj [("arr", JVal.arr [JVal.num 1, JVal.num 2, JVal.num 3])]) [Seg.prop "arr"] =
      some (.arr [JVal.num 1, JVal.num 2, JVal.num 3]) ∧
    ((pushOp [Seg.prop "arr"] (JVal.num 4)
        (JVal.obj [("arr", JVal.arr [JVal.num 1, JVal.num 2, JVal.num 3])])
        ⟨[], [([Seg.prop "arr"], [⟨1, 0, []⟩])]⟩).ds).filter (fun d => d.cb == (1 : Nat)) =
      [⟨1, 0, ⟨"push", some (JVal.num 4), some 3⟩⟩] ∧
    (pushOp [Seg.prop "arr"] (JVal.num 4)
        (JVal.obj [("arr", JVal.arr [JVal.num 1, JVal.num 2, JVal.num 3])])
        ⟨[], [([Seg.prop "arr"], [⟨1, 0, []⟩])]⟩).err = false := by
  refine ⟨by decide, by decide, rfl, ?_⟩
  have h := C3_push_generic [Seg.prop "arr"]
    (JVal.obj [("arr", JVal.arr [JVal.num 1, JVal.num 2, JVal.num 3])]) (JVal.num 4)
    ⟨1, 0, []⟩ [JVal.num 1, JVal.num 2, JVal.num 3] []
    (by decide) (by decide) (by decide) rfl (by simp)
  exact h

/-! ### Claim C2: `filter` reports indices in strictly descending order -/

theorem flatMap_invoke_sublist (op : String) (L : Listener) (f g h : Nat → Option JVal)
    (rng : List Nat) :
    ((rng.flatMap (fun i => invoke op L (f i) (g i) (h i) (some i))).filterMap
      (fun d => d.msg.index)).Sublist rng := by
  induction rng with
  | nil => simp
  | cons i rest ih =>
    rw [List.flatMap_cons, List.filterMap_append]
    rcases @invoke_sub op L (f i) (g i) (h i) (some i) with hinv | hinv
    · rw [hinv, List.filterMap_nil, List.nil_append]
      exact List.Sublist.cons i ih
    · rw [hinv]
      simp only [List.filterMap_cons, List.filterMap_nil, List.nil_append]
      exact List.Sublist.cons₂ i ih

/-- C2 (confirmed): with the generic registry holding exactly the observer
`path[]`, the per-index pass of a `filter(path, predicate)` call walks
`maxRange-1 .. 0` (the reverse flag is set), so the index-carrying messages
of the call are delivered in strictly descending index order. -/
theorem C2_filter_descending (path : JPath) (pred : JVal → Nat → Bool) (t : JVal)
    (L : Listener) (spec : List (JPath × List Listener)) :
    List.Pairwise (fun a b => b < a)
      (((filterOp path pred t ⟨spec, [(path, [L])]⟩).ds).filterMap
        (fun d => d.msg.index)) := by
  unfold filterOp
  cases hw : updateAt path (fun c => match c with
      | JVal.arr xs => some (.arr ((withIdx xs).filterMap
          (fun p => if pred p.1 p.2 then some p.1 else none)))
      | _ => none) t with
  | none => simp
  | some t1 =>
    have hsp : ((spec.flatMap (fun e =>
        e.2.flatMap (fun l => invoke "filter" l (jget t1 e.1) (jget t e.1) (jget t1 e.1)
          none))).filterMap (fun d => d.msg.index)) = [] := by
      rw [List.filterMap_eq_nil_iff]
      intro d hd
      rw [List.mem_flatMap] at hd
      obtain ⟨e, _, hd⟩ := hd
      rw [List.mem_flatMap] at hd
      obtain ⟨l, _, hd⟩ := hd
      rw [invoke_mem hd]
    have hp1 : (permutateKey path).flatMap (fun e =>
        (lookupGen [(path, [L])] e.2.1).flatMap (fun l =>
          invoke "filter" l (jget t1 e.1) (jget t e.1) (jget t1 e.1) (some e.2.2))) = [] := by
      apply List.flatMap_eq_nil_iff.mpr
      intro e he
      rw [lookupGen_single_short (permutateKey_gbase_short he)]
      rfl
    have hp2 : List.Pairwise (fun a b : Nat => b < a)
        (((part2Go "filter" true t t1 [(path, [L])]).1).filterMap
          (fun d => d.msg.index)) := by
      simp only [part2Go]
      cases h1 : lengthRead (jget t path) with
      | none => simp
      | some oldLen =>
        cases h2 : lengthRead (jget t1 path) with
        | none => simp
        | some curLen =>
          simp only [List.filterMap_append]
          cases hmr : (if jsGT oldLen curLen then oldLen else curLen) with
          | none => simp
          | some m =>
            simp only [if_true, List.filterMap_nil, List.append_nil]
            have hrange : List.Pairwise (fun a b : Nat => b < a) ((List.range m).reverse) := by
              rw [List.pairwise_reverse]
              exact List.pairwise_lt_range m
            refine List.Pairwise.sublist ?_ hrange
            simpa using flatMap_invoke_sublist "filter" L
              (fun i => indexNat (jget t1 path) i) (fun i => indexNat (jget t path) i)
              (fun i => indexNat (jget t1 path) i) ((List.range m).reverse)
    rcases Nat.lt_or_ge (bracketCount path) 2 with hbc | hbc
    · have haff : ([(path, [L])] : List (JPath × List Listener)).filter
          (fun e => matchesAffected path e.1) = [(path, [L])] := by
        simp [List.filter_cons, matchesAffected_self path hbc]
      simp only [hw, notify, deepClone, haff, hp1, List.append_nil]
      rw [List.filterMap_append, hsp, List.nil_append]
      exact hp2
    · have haff : ([(path, [L])] : List (JPath × List Listener)).filter
          (fun e => matchesAffected path e.1) = [] := by
        simp [List.filter_cons, matchesAffected_multi path path hbc]
      simp only [hw, notify, deepClone, haff, hp1, part2Go, List.append_nil]
      rw [hsp]
      exact List.Pairwise.nil
